import Mathlib

/-!
Trekkie watchface (`src/trekkie.c`): stardate, time and battery display rules.

A shallow embedding of the update callbacks of the watchface, and the properties
its specification states about them.

Floating point.  The function `stardate_update` computes in C `float` and
`double`.  The embedding follows IEEE 754: `float` is binary32 (24 significant
bits), `double` is binary64 (53 significant bits), every operation is rounded to
nearest, ties to even, in the type C gives it (operands of mixed type are
promoted to `double`, two `float` operands give a `float`, an assignment to a
`float` variable rounds to binary32).  Values are carried as exact fractions of
integers (`Frac`), so that every definition evaluates inside the kernel.  The
exponent range is not bounded in the model: on the inputs of the watchface every
non-zero intermediate value lies between `2^-11` and `2^27`, far inside the
normal range of both formats, where the model is exact.
-/

set_option maxRecDepth 100000

namespace Trekkie

/-! ## Exact fractions -/

/-- An exact value `num / den`, not normalised; `den` is positive in every value
the model builds. -/
structure Frac where
  num : ℤ
  den : ℕ
deriving DecidableEq

namespace Frac

/-- The integer `n` as a fraction (conversion of a C `int`). -/
def ofInt (n : ℤ) : Frac := ⟨n, 1⟩

/-- Exact sum. -/
def add (x y : Frac) : Frac := ⟨x.num * y.den + y.num * x.den, x.den * y.den⟩

/-- Exact difference. -/
def sub (x y : Frac) : Frac := ⟨x.num * y.den - y.num * x.den, x.den * y.den⟩

/-- Exact product. -/
def mul (x y : Frac) : Frac := ⟨x.num * y.num, x.den * y.den⟩

/-- Exact quotient (the sign of the divisor moves to the numerator). -/
def div (x y : Frac) : Frac := ⟨x.num * y.den * y.num.sign, x.den * y.num.natAbs⟩

/-- The rational number a fraction stands for. -/
def toRat (x : Frac) : ℚ := (x.num : ℚ) / (x.den : ℚ)

/-- The C cast `(int)x`: the fractional part is discarded (truncation toward
zero). -/
def trunc (x : Frac) : ℤ := Int.tdiv x.num x.den

end Frac

/-! ## IEEE 754 rounding -/

/-- Number of binary digits of `n`, by repeated halving (`fuel` bounds the
number of halvings). -/
def bitlenAux : ℕ → ℕ → ℕ
  | 0, _ => 0
  | fuel + 1, n => if n = 0 then 0 else bitlenAux fuel (n / 2) + 1

/-- Number of binary digits of `n` (`0` for `n = 0`). -/
def bitlen (n : ℕ) : ℕ := bitlenAux n n

/-- The binary exponent of the positive fraction `n / d`: the integer `e` with
`2^e ≤ n / d < 2^(e+1)`.  The difference of the bit lengths is `e` or `e + 1`;
the comparison decides which. -/
def ilog2 (n d : ℕ) : ℤ :=
  let k : ℤ := (bitlen n : ℤ) - (bitlen d : ℤ)
  if d * 2 ^ k.toNat ≤ n * 2 ^ (-k).toNat then k else k - 1

/-- Nearest integer to `n / d`, ties to the even one. -/
def rne (n d : ℕ) : ℕ :=
  let q := n / d
  let r := n % d
  if 2 * r < d then q else if d < 2 * r then q + 1 else if q % 2 = 0 then q else q + 1

/-- Rounds `x` to the nearest binary floating-point number with `p` significant
bits, ties to even.  With `e` the binary exponent of `|x|`, the significand is
`|x| * 2^s` for `s = p - 1 - e`, rounded to an integer `m`; the result is
`± m / 2^s`. -/
def roundTo (p : ℕ) (x : Frac) : Frac :=
  if x.num = 0 then ⟨0, 1⟩ else
  let n := x.num.natAbs
  let s : ℤ := (p : ℤ) - 1 - ilog2 n x.den
  let m := rne (n * 2 ^ s.toNat) (x.den * 2 ^ (-s).toNat)
  ⟨x.num.sign * ((m * 2 ^ (-s).toNat : ℕ) : ℤ), 2 ^ s.toNat⟩

/-- Rounding to C `float` (binary32). -/
def f32 (x : Frac) : Frac := roundTo 24 x

/-- Rounding to C `double` (binary64). -/
def f64 (x : Frac) : Frac := roundTo 53 x

/-! ## The stardate formula (`stardate_update`, lines 69-74) -/

/-- The integer expression `(atoi(year) * 365) + (int)((atoi(year) - 1) / 4)`;
C integer division truncates toward zero. -/
def yearoffset_int (year : ℤ) : ℤ := year * 365 + Int.tdiv (year - 1) 4

/-- The `float` variable `yearoffset`: the integer expression converted to
`float` by the assignment. -/
def yearoffset (year : ℤ) : Frac := f32 (Frac.ofInt (yearoffset_int year))

/-- The `double` sub-expression `atoi(mins) / 60.0`. -/
def dd_mins (mins : ℤ) : Frac := f64 (Frac.div (Frac.ofInt mins) (Frac.ofInt 60))

/-- The `double` sub-expression `(atoi(mins) / 60.0) + atoi(hour)`. -/
def dd_hours (hour mins : ℤ) : Frac := f64 (Frac.add (dd_mins mins) (Frac.ofInt hour))

/-- The `double` sub-expression `((atoi(mins) / 60.0) + atoi(hour)) / 24.0`. -/
def dd_day (hour mins : ℤ) : Frac := f64 (Frac.div (dd_hours hour mins) (Frac.ofInt 24))

/-- The `double` sub-expression
`(((atoi(mins) / 60.0) + atoi(hour)) / 24.0) + atoi(doy)`. -/
def dd_sum (doy hour mins : ℤ) : Frac := f64 (Frac.add (dd_day hour mins) (Frac.ofInt doy))

/-- The `double` expression
`(((atoi(mins) / 60.0) + atoi(hour)) / 24.0) + atoi(doy) - 1`, every operation
rounded to `double`; C groups it as `(... + atoi(doy)) - 1`. -/
def decdays_double (doy hour mins : ℤ) : Frac :=
  f64 (Frac.sub (dd_sum doy hour mins) (Frac.ofInt 1))

/-- The `float` variable `decdays`. -/
def decdays (doy hour mins : ℤ) : Frac := f32 (decdays_double doy hour mins)

/-- The `double` constant `365.242196`: the decimal literal rounded to
`double`. -/
def tropical_year : Frac := f64 ⟨365242196, 1000000⟩

/-- The `double` expression `1000 / 365.242196`. -/
def stardate_scale : Frac := f64 (Frac.div (Frac.ofInt 1000) tropical_year)

/-- The `float` sub-expression `yearoffset + decdays`: the sum of two `float`s
is rounded to `float`. -/
def stardate_days (year doy hour mins : ℤ) : Frac :=
  f32 (Frac.add (yearoffset year) (decdays doy hour mins))

/-- The `float` variable `stardate`:
`(yearoffset + decdays) * (1000 / 365.242196)`.  The product of the `float` sum
with the `double` constant is a `double`, and the assignment rounds it to
`float`. -/
def stardate (year doy hour mins : ℤ) : Frac :=
  f32 (f64 (Frac.mul (stardate_days year doy hour mins) stardate_scale))

/-- The first `snprintf` argument, `(int)stardate`. -/
def stardate_whole (year doy hour mins : ℤ) : ℤ :=
  (stardate year doy hour mins).trunc

/-- The second `snprintf` argument, `(int)(stardate * 1000) % 1000`: the product
is a `float` product, the cast truncates, and C `%` keeps the sign of the
dividend. -/
def stardate_frac (year doy hour mins : ℤ) : ℤ :=
  Int.tmod (f32 (Frac.mul (stardate year doy hour mins) (Frac.ofInt 1000))).trunc 1000

/-! ## `printf` conversions and C strings -/

/-- The string terminator. -/
def NUL : Char := Char.ofNat 0

/-- Pads `s` on the left with `c` up to width `w`. -/
def padLeft (w : ℕ) (c : Char) (s : List Char) : List Char :=
  List.replicate (w - s.length) c ++ s

/-- The conversion `%0<w>d`: zeros are inserted after the sign. -/
def fmt_0d (w : ℕ) (n : ℤ) : List Char :=
  if n < 0 then '-' :: padLeft (w - 1) '0' (Nat.toDigits 10 n.natAbs)
  else padLeft w '0' (Nat.toDigits 10 n.natAbs)

/-- The conversion `%<w>d`: blanks are inserted before the sign. -/
def fmt_d (w : ℕ) (n : ℤ) : List Char :=
  padLeft w ' ' ((if n < 0 then ['-'] else []) ++ Nat.toDigits 10 n.natAbs)

/-- The conversion `%0<w>u`. -/
def fmt_0u (w : ℕ) (n : ℕ) : List Char := padLeft w '0' (Nat.toDigits 10 n)

/-- The call `snprintf(buf, size, ...)` with formatted output `s`: at most
`size - 1` characters of `s` are stored, then a terminator; the bytes of `buf`
behind the terminator keep their old value. -/
def snprintf (buf : List Char) (size : ℕ) (s : List Char) : List Char :=
  let out := s.take (size - 1) ++ [NUL]
  out ++ buf.drop out.length

/-- The C string held in a buffer: the characters before the first
terminator. -/
def cstr (buf : List Char) : String := String.mk (buf.takeWhile (fun c => c != NUL))

/-- The function `atoi` on a string of decimal digits: the leading digits are
read, anything behind them is ignored. -/
def atoi (s : List Char) : ℤ :=
  ((s.takeWhile Char.isDigit).foldl (fun acc c => acc * 10 + (c.toNat - 48)) 0 : ℕ)

/-! ## Host types and services (`pebble.h`, not part of the repository) -/

/-- The fields of `struct tm` the watchface reads; `localtime` delivers them
non-negative. -/
structure Tm where
  tm_min : ℕ
  tm_hour : ℕ
  tm_mday : ℕ
  tm_mon : ℕ
  tm_year : ℕ
  tm_wday : ℕ
  tm_yday : ℕ
deriving DecidableEq

/-- The value `BatteryChargeState` of the host: the fields the watchface
reads. -/
structure BatteryChargeState where
  charge_percent : ℕ
  is_charging : Bool
deriving DecidableEq

/-- The rectangle type of the host. -/
structure GRect where
  x : ℤ
  y : ℤ
  w : ℤ
  h : ℤ
deriving DecidableEq

/-- Modelled from the spec: the bit of the host's `TimeUnits` mask for a changed
second (the header that declares it is not in the repository). -/
def SECOND_UNIT : ℕ := 1

/-- Modelled from the spec: the `TimeUnits` bit for a changed minute. -/
def MINUTE_UNIT : ℕ := 2

/-- Modelled from the spec: the `TimeUnits` bit for a changed hour. -/
def HOUR_UNIT : ℕ := 4

/-- Modelled from the spec: the `TimeUnits` bit for a changed day. -/
def DAY_UNIT : ℕ := 8

/-- Modelled from the spec: the `TimeUnits` bit for a changed month. -/
def MONTH_UNIT : ℕ := 16

/-- Modelled from the spec: the `TimeUnits` bit for a changed year. -/
def YEAR_UNIT : ℕ := 32

/-- What the host answers during one tick: the result of
`clock_is_24h_style()` and the full text `clock_copy_time_string` would copy
into an unbounded buffer. -/
structure Host where
  clock_is_24h_style : Bool
  clock_time_string : List Char
deriving DecidableEq

/-- The call `strftime(buf, size, ...)` with formatted output `s`: the output
and its terminator are stored when they fit in `size` bytes.  When they do not
fit C leaves the buffer indeterminate; the model keeps the old bytes (the case
does not arise for a `struct tm` with fields in their calendar ranges). -/
def strftime (buf : List Char) (size : ℕ) (s : List Char) : List Char :=
  if s.length < size then snprintf buf size s else buf

/-- The call `clock_copy_time_string(buf, size)`: the host's time text, cut to
`size - 1` characters and terminated. -/
def clock_copy_time_string (h : Host) (buf : List Char) (size : ℕ) : List Char :=
  snprintf buf size h.clock_time_string

/-- Abbreviated weekday name, conversion `%a` in the C locale. -/
def strf_a (t : Tm) : List Char :=
  (["Sun", "Mon", "Tue", "Wed", "Thu", "Fri", "Sat"].getD t.tm_wday "?").data

/-- Abbreviated month name, conversion `%b` in the C locale. -/
def strf_b (t : Tm) : List Char :=
  (["Jan", "Feb", "Mar", "Apr", "May", "Jun", "Jul", "Aug", "Sep", "Oct", "Nov",
    "Dec"].getD t.tm_mon "?").data

/-- Conversion `%d`: day of the month, two digits. -/
def strf_d (t : Tm) : List Char := fmt_0u 2 t.tm_mday

/-- Conversion `%m`: month number, two digits. -/
def strf_m (t : Tm) : List Char := fmt_0u 2 (t.tm_mon + 1)

/-- Conversion `%y`: year within the century, two digits (`tm_year` counts from
1900). -/
def strf_y (t : Tm) : List Char := fmt_0u 2 (t.tm_year % 100)

/-- Conversion `%j`: day of the year counted from 1, three digits. -/
def strf_j (t : Tm) : List Char := fmt_0u 3 (t.tm_yday + 1)

/-- Conversion `%H`: hour, two digits. -/
def strf_H (t : Tm) : List Char := fmt_0u 2 t.tm_hour

/-- Conversion `%M`: minute, two digits. -/
def strf_M (t : Tm) : List Char := fmt_0u 2 t.tm_min

/-- Conversion `%R`: `%H:%M`. -/
def strf_R (t : Tm) : List Char := strf_H t ++ [':'] ++ strf_M t

/-! ## Program state -/

/-- The state the callbacks read and write: the `static` buffers of the
functions, the file-scope `old_charge_state`, and what the host displays.  A text
layer records the string that was in the buffer when `text_layer_set_text` was
called on it (`none`: never set); every function of the program that writes a
buffer sets it on its layer before it returns, so the record is what the host
renders. -/
structure Watch where
  battery_percent_text : List Char
  date_text : List Char
  nice_date_text : List Char
  stardate_text : List Char
  year : List Char
  doy : List Char
  hour : List Char
  mins : List Char
  time_text : List Char
  old_charge_state : BatteryChargeState
  text_date_layer : Option String
  text_nice_date_layer : Option String
  text_time_layer : Option String
  text_ampm_layer : Option String
  text_stardate_layer : Option String
  battery_percent : Option String
  battery_charge_hidden : Bool
  bluetooth_hidden : Bool
  battery_status_dirty : Bool
deriving DecidableEq

/-- The state after `init` has created the layers (lines 99-169) and before its
first updates: the buffers hold their initialisers, no text is set, the charging
glyph is hidden (line 157). -/
def Watch.created : Watch where
  battery_percent_text := "000".data ++ [NUL]
  date_text := "00.00.00".data ++ [NUL]
  nice_date_text := "Xxx. Xxx. 00".data ++ [NUL]
  stardate_text := "00000.00".data ++ [NUL]
  year := "00".data ++ [NUL]
  doy := "000".data ++ [NUL]
  hour := "00".data ++ [NUL]
  mins := "00".data ++ [NUL]
  time_text := List.replicate 6 NUL
  old_charge_state := ⟨0, false⟩
  text_date_layer := none
  text_nice_date_layer := none
  text_time_layer := none
  text_ampm_layer := none
  text_stardate_layer := none
  battery_percent := none
  battery_charge_hidden := true
  bluetooth_hidden := false
  battery_status_dirty := false

/-! ## The callbacks -/

/-- The callback `update_battery_display` (lines 22-30). -/
def update_battery_display (charge_state : BatteryChargeState) (w : Watch) : Watch :=
  let buf := snprintf w.battery_percent_text 4 (fmt_0u 2 charge_state.charge_percent)
  let buf := if charge_state.charge_percent < 100 then buf.set 2 '%' else buf
  { w with
    battery_percent_text := buf
    battery_percent := some (cstr buf)
    battery_charge_hidden := !charge_state.is_charging
    old_charge_state := charge_state
    battery_status_dirty := true }

/-- The callback `update_bluetooth_status` (lines 32-34). -/
def update_bluetooth_status (connected : Bool) (w : Watch) : Watch :=
  { w with bluetooth_hidden := !connected }

/-- The drawing procedure `battery_status_layer_update` (lines 36-39): the
rectangle it fills. -/
def battery_status_layer_update (w : Watch) : GRect :=
  ⟨0, 0, (w.old_charge_state.charge_percent * 19 / 100 : ℕ), 3⟩

/-- The function `date_update` (lines 41-50). -/
def date_update (t : Tm) (_units_changed : ℕ) (w : Watch) : Watch :=
  let date_text := strftime w.date_text 9 (strf_d t ++ ['.'] ++ strf_m t ++ ['.'] ++ strf_y t)
  let nice_date_text := strftime w.nice_date_text 13
    (strf_a t ++ ['.', '\n'] ++ strf_b t ++ ['.', '\n'] ++ strf_d t)
  { w with
    date_text := date_text
    nice_date_text := nice_date_text
    text_date_layer := some (cstr date_text)
    text_nice_date_layer := some (cstr nice_date_text) }

/-- The formatted output of the `snprintf` of line 74, before it is cut to the
buffer: `"%05d.%2d"` applied to the whole part and the fraction value. -/
def stardate_format (year doy hour mins : ℤ) : List Char :=
  fmt_0d 5 (stardate_whole year doy hour mins) ++ ['.'] ++
    fmt_d 2 (stardate_frac year doy hour mins)

/-- The function `stardate_update` (lines 52-76). -/
def stardate_update (t : Tm) (_units_changed : ℕ) (w : Watch) : Watch :=
  let year := strftime w.year 3 (strf_y t)
  let doy := strftime w.doy 4 (strf_j t)
  let hour := strftime w.hour 3 (strf_H t)
  let mins := strftime w.mins 3 (strf_M t)
  let stardate_text := snprintf w.stardate_text 9
    (stardate_format (atoi year) (atoi doy) (atoi hour) (atoi mins))
  { w with
    year := year
    doy := doy
    hour := hour
    mins := mins
    stardate_text := stardate_text
    text_stardate_layer := some (cstr stardate_text) }

/-- The size `time_update` passes to `clock_copy_time_string` (line 90):
`tick_time->tm_hour%12<10?5:6`. -/
def clock_copy_size (tm_hour : ℕ) : ℕ := if tm_hour % 12 < 10 then 5 else 6

/-- The tick callback `time_update` (lines 78-96). -/
def time_update (h : Host) (t : Tm) (units_changed : ℕ) (w : Watch) : Watch :=
  let w := if units_changed ≥ DAY_UNIT then date_update t units_changed w else w
  let w := stardate_update t units_changed w
  let w :=
    if h.clock_is_24h_style then
      { w with time_text := strftime w.time_text 6 (strf_R t) }
    else
      { w with
        time_text := clock_copy_time_string h w.time_text (clock_copy_size t.tm_hour)
        text_ampm_layer := some (if t.tm_hour < 12 then "am" else "pm") }
  { w with text_time_layer := some (cstr w.time_text) }

/-- The updates at the end of `init` (lines 172-177), on the state after layer
creation. -/
def init (h : Host) (tick_time : Tm) (battery : BatteryChargeState) (connected : Bool) :
    Watch :=
  update_bluetooth_status connected
    (update_battery_display battery (time_update h tick_time DAY_UNIT Watch.created))

/-- The states of a run: the state after layer creation, then the three
callbacks in any order with any arguments.  `init` makes the first call of each
itself (lines 175-177) and subscribes them with the host (lines 180-182). -/
inductive Reachable : Watch → Prop
  | created : Reachable Watch.created
  | tick (h : Host) (t : Tm) (u : ℕ) {w : Watch} : Reachable w → Reachable (time_update h t u w)
  | battery (b : BatteryChargeState) {w : Watch} :
      Reachable w → Reachable (update_battery_display b w)
  | bluetooth (c : Bool) {w : Watch} : Reachable w → Reachable (update_bluetooth_status c w)

/-! ## Vocabulary of the properties -/

/-- The inputs of the stardate formula in their calendar ranges: year within the
century, day of the year counted from 1, hour, minute. -/
def ValidInput (y d h m : ℤ) : Prop :=
  (0 ≤ y ∧ y ≤ 99) ∧ (1 ≤ d ∧ d ≤ 366) ∧ (0 ≤ h ∧ h ≤ 23) ∧ (0 ≤ m ∧ m ≤ 59)

/-- The order of two inputs by (year, day of the year, hour, minute). -/
def LexLe (ya da ha ma yb db hb mb : ℤ) : Prop :=
  ya < yb ∨ (ya = yb ∧ (da < db ∨ (da = db ∧ (ha < hb ∨ (ha = hb ∧ ma ≤ mb)))))

/-- The fields `stardate_update` reads are in their calendar ranges, as in every
`struct tm` that `localtime` fills. -/
def Tm.inRange (t : Tm) : Prop := t.tm_yday ≤ 365 ∧ t.tm_hour ≤ 23 ∧ t.tm_min ≤ 59

/-- The regression fixture as a `struct tm`: 1 January 2016, 00:00, a Friday. -/
def fixture : Tm := ⟨0, 0, 1, 0, 116, 5, 0⟩

/-- The hour number a 12-hour clock shows: 12 when `hour % 12 = 0`, otherwise
`hour % 12`. -/
def hour12 (hour : ℕ) : ℕ := if hour % 12 = 0 then 12 else hour % 12

/-- The bytes the clock text `H:MM` takes with its terminator, `H` written
without padding: the number of digits of `H`, and four more. -/
def clock_text_size (hour : ℕ) : ℕ := (Nat.toDigits 10 (hour12 hour)).length + 4

/-- The bits of the `TimeUnits` mask that announce a change of the date. -/
def DATE_UNITS : ℕ := DAY_UNIT ||| MONTH_UNIT ||| YEAR_UNIT

/-- A fraction with a non-negative numerator and a positive denominator. -/
def Frac.NN (x : Frac) : Prop := 0 ≤ x.num ∧ 0 < x.den

/-- The integer `m` is a nearest integer to `q`, and is even when `q` lies half
way between two integers. -/
def Near (q : ℚ) (m : ℤ) : Prop :=
  2 * q - 1 ≤ 2 * m ∧ 2 * (m : ℚ) ≤ 2 * q + 1 ∧
    ((2 * (m : ℚ) = 2 * q - 1 ∨ 2 * (m : ℚ) = 2 * q + 1) → m % 2 = 0)


/-! ## Arithmetic of fractions -/

namespace Frac

theorem toRat_ofInt (n : ℤ) : (ofInt n).toRat = n := by
  simp [toRat, ofInt]

theorem toRat_add (x y : Frac) (hx : 0 < x.den) (hy : 0 < y.den) :
    (add x y).toRat = x.toRat + y.toRat := by
  have h1 : (x.den : ℚ) ≠ 0 := by exact_mod_cast hx.ne'
  have h2 : (y.den : ℚ) ≠ 0 := by exact_mod_cast hy.ne'
  simp only [toRat, add]
  push_cast
  field_simp

theorem toRat_sub (x y : Frac) (hx : 0 < x.den) (hy : 0 < y.den) :
    (sub x y).toRat = x.toRat - y.toRat := by
  have h1 : (x.den : ℚ) ≠ 0 := by exact_mod_cast hx.ne'
  have h2 : (y.den : ℚ) ≠ 0 := by exact_mod_cast hy.ne'
  simp only [toRat, sub]
  push_cast
  field_simp
  ring

theorem toRat_mul (x y : Frac) : (mul x y).toRat = x.toRat * y.toRat := by
  simp only [toRat, mul]
  push_cast
  rw [mul_div_mul_comm]

theorem toRat_div (x y : Frac) (hy : 0 < y.num) (hd : 0 < y.den) :
    (div x y).toRat = x.toRat / y.toRat := by
  have h2 : (y.den : ℚ) ≠ 0 := by exact_mod_cast hd.ne'
  have h3 : (y.num : ℚ) ≠ 0 := by exact_mod_cast hy.ne'
  have h4 : ((y.num.natAbs : ℕ) : ℚ) = (y.num : ℚ) := by
    rw [Nat.cast_natAbs, abs_of_pos hy]
  simp only [toRat, div, Int.sign_eq_one_of_pos hy]
  push_cast
  rw [h4]
  by_cases h1 : (x.den : ℚ) = 0
  · simp [h1]
  · field_simp

theorem NN.toRat_nonneg {x : Frac} (h : x.NN) : 0 ≤ x.toRat := by
  unfold toRat
  have h1 : (0 : ℚ) ≤ x.num := by exact_mod_cast h.1
  positivity

theorem NN_ofInt {n : ℤ} (h : 0 ≤ n) : (ofInt n).NN := ⟨h, Nat.one_pos⟩

theorem NN_add {x y : Frac} (hx : x.NN) (hy : y.NN) : (add x y).NN := by
  refine ⟨?_, Nat.mul_pos hx.2 hy.2⟩
  show 0 ≤ x.num * y.den + y.num * x.den
  have := hx.1
  have := hy.1
  positivity

theorem NN_mul {x y : Frac} (hx : x.NN) (hy : y.NN) : (mul x y).NN :=
  ⟨Int.mul_nonneg hx.1 hy.1, Nat.mul_pos hx.2 hy.2⟩

theorem NN_div {x y : Frac} (hx : x.NN) (hy : 0 < y.num) : (div x y).NN := by
  refine ⟨?_, Nat.mul_pos hx.2 (Int.natAbs_pos.mpr hy.ne')⟩
  show 0 ≤ x.num * y.den * y.num.sign
  rw [Int.sign_eq_one_of_pos hy]
  have := hx.1
  positivity

/-- On a non-negative fraction the C cast is the floor. -/
theorem trunc_eq_floor {x : Frac} (h : x.NN) : x.trunc = ⌊x.toRat⌋ := by
  unfold trunc toRat
  rw [Int.tdiv_eq_ediv h.1, Rat.floor_intCast_div_natCast]
  exact Int.natCast_nonneg _

end Frac


/-! ## Correctness of the rounding function -/

theorem bitlenAux_zero (fuel : ℕ) : bitlenAux fuel 0 = 0 := by
  cases fuel <;> simp [bitlenAux]

theorem bitlenAux_spec : ∀ (fuel n : ℕ), n ≤ fuel → 0 < n →
    2 ^ (bitlenAux fuel n - 1) ≤ n ∧ n < 2 ^ bitlenAux fuel n := by
  intro fuel
  induction fuel with
  | zero => intro n h1 h2; omega
  | succ fuel ih =>
    intro n h1 h2
    have hn : n ≠ 0 := by omega
    simp only [bitlenAux, hn, if_false, Nat.add_sub_cancel]
    rcases Nat.eq_zero_or_pos (n / 2) with h0 | hpos
    · rw [h0, bitlenAux_zero]
      have : n = 1 := by omega
      subst this
      simp
    · obtain ⟨ih1, ih2⟩ := ih (n / 2) (by omega) hpos
      have hb : 0 < bitlenAux fuel (n / 2) := by
        rcases Nat.eq_zero_or_pos (bitlenAux fuel (n / 2)) with h | h
        · rw [h] at ih2; simp at ih2; omega
        · exact h
      have e1 : 2 ^ bitlenAux fuel (n / 2) = 2 * 2 ^ (bitlenAux fuel (n / 2) - 1) := by
        rw [← pow_succ']
        congr 1
        omega
      constructor
      · rw [e1]; omega
      · rw [pow_succ]; omega

theorem bitlen_spec (n : ℕ) (h : 0 < n) : 2 ^ (bitlen n - 1) ≤ n ∧ n < 2 ^ bitlen n :=
  bitlenAux_spec n n le_rfl h

theorem bitlen_pos (n : ℕ) (h : 0 < n) : 0 < bitlen n := by
  rcases Nat.eq_zero_or_pos (bitlen n) with h0 | h0
  · have := (bitlen_spec n h).2
    rw [h0] at this
    simp at this
    omega
  · exact h0

/-- A power of two with an integer exponent, as a quotient of natural powers. -/
theorem zpow_two_split (k : ℤ) :
    (2 : ℚ) ^ k = ((2 ^ k.toNat : ℕ) : ℚ) / ((2 ^ (-k).toNat : ℕ) : ℚ) := by
  rcases le_or_lt 0 k with h | h
  · have h1 : (-k).toNat = 0 := by omega
    have h2 : k = (k.toNat : ℤ) := by omega
    rw [h1]
    conv_lhs => rw [h2]
    rw [zpow_natCast]
    simp
  · have h1 : k.toNat = 0 := by omega
    have h2 : k = -((-k).toNat : ℤ) := by omega
    rw [h1]
    conv_lhs => rw [h2]
    rw [zpow_neg, zpow_natCast]
    simp

theorem ilog2_spec (n d : ℕ) (hn : 0 < n) (hd : 0 < d) :
    (2 : ℚ) ^ ilog2 n d ≤ (n : ℚ) / d ∧ (n : ℚ) / d < (2 : ℚ) ^ (ilog2 n d + 1) := by
  have hd' : (0 : ℚ) < d := by exact_mod_cast hd
  obtain ⟨n1, n2⟩ := bitlen_spec n hn
  obtain ⟨d1, d2⟩ := bitlen_spec d hd
  have bn := bitlen_pos n hn
  have bd := bitlen_pos d hd
  have n1q : (2 : ℚ) ^ ((bitlen n : ℤ) - 1) ≤ n := by
    have : ((bitlen n : ℤ) - 1) = ((bitlen n - 1 : ℕ) : ℤ) := by omega
    rw [this, zpow_natCast]
    exact_mod_cast n1
  have n2q : (n : ℚ) < (2 : ℚ) ^ (bitlen n : ℤ) := by
    rw [zpow_natCast]
    exact_mod_cast n2
  have d1q : (2 : ℚ) ^ ((bitlen d : ℤ) - 1) ≤ d := by
    have : ((bitlen d : ℤ) - 1) = ((bitlen d - 1 : ℕ) : ℤ) := by omega
    rw [this, zpow_natCast]
    exact_mod_cast d1
  have d2q : (d : ℚ) < (2 : ℚ) ^ (bitlen d : ℤ) := by
    rw [zpow_natCast]
    exact_mod_cast d2
  have two_pos : ∀ j : ℤ, (0 : ℚ) < (2 : ℚ) ^ j := fun j => zpow_pos (by norm_num) j
  -- the quotient lies strictly between `2^(k-1)` and `2^(k+1)`
  have lo : (2 : ℚ) ^ ((bitlen n : ℤ) - (bitlen d : ℤ) - 1) < (n : ℚ) / d := by
    rw [lt_div_iff₀ hd']
    calc (2 : ℚ) ^ ((bitlen n : ℤ) - (bitlen d : ℤ) - 1) * d
        < (2 : ℚ) ^ ((bitlen n : ℤ) - (bitlen d : ℤ) - 1) * (2 : ℚ) ^ (bitlen d : ℤ) :=
          mul_lt_mul_of_pos_left d2q (two_pos _)
      _ = (2 : ℚ) ^ ((bitlen n : ℤ) - 1) := by
          rw [← zpow_add₀ (by norm_num : (2 : ℚ) ≠ 0)]
          congr 1
          ring
      _ ≤ n := n1q
  have hi : (n : ℚ) / d < (2 : ℚ) ^ ((bitlen n : ℤ) - (bitlen d : ℤ) + 1) := by
    rw [div_lt_iff₀ hd']
    calc (n : ℚ) < (2 : ℚ) ^ (bitlen n : ℤ) := n2q
      _ = (2 : ℚ) ^ ((bitlen n : ℤ) - (bitlen d : ℤ) + 1) * (2 : ℚ) ^ ((bitlen d : ℤ) - 1) := by
          rw [← zpow_add₀ (by norm_num : (2 : ℚ) ≠ 0)]
          congr 1
          ring
      _ ≤ (2 : ℚ) ^ ((bitlen n : ℤ) - (bitlen d : ℤ) + 1) * d :=
          mul_le_mul_of_nonneg_left d1q (two_pos _).le
  -- the comparison of `ilog2` is the comparison of `2^k` with the quotient
  have test : (d * 2 ^ ((bitlen n : ℤ) - (bitlen d : ℤ)).toNat
        ≤ n * 2 ^ (-((bitlen n : ℤ) - (bitlen d : ℤ))).toNat) ↔
      (2 : ℚ) ^ ((bitlen n : ℤ) - (bitlen d : ℤ)) ≤ (n : ℚ) / d := by
    rw [zpow_two_split, le_div_iff₀ hd', div_mul_eq_mul_div, div_le_iff₀ (by positivity)]
    constructor
    · intro h
      have : ((d * 2 ^ ((bitlen n : ℤ) - (bitlen d : ℤ)).toNat : ℕ) : ℚ)
          ≤ ((n * 2 ^ (-((bitlen n : ℤ) - (bitlen d : ℤ))).toNat : ℕ) : ℚ) := by
        exact_mod_cast h
      push_cast at this ⊢
      linarith
    · intro h
      have : ((d * 2 ^ ((bitlen n : ℤ) - (bitlen d : ℤ)).toNat : ℕ) : ℚ)
          ≤ ((n * 2 ^ (-((bitlen n : ℤ) - (bitlen d : ℤ))).toNat : ℕ) : ℚ) := by
        push_cast at h ⊢
        linarith
      exact_mod_cast this
  unfold ilog2
  simp only []
  split_ifs with h
  · exact ⟨test.mp h, hi⟩
  · constructor
    · exact lo.le
    · have : (bitlen n : ℤ) - (bitlen d : ℤ) - 1 + 1 = (bitlen n : ℤ) - (bitlen d : ℤ) := by ring
      rw [this]
      exact lt_of_not_le (fun hh => h (test.mpr hh))

theorem rne_spec (n d : ℕ) (hd : 0 < d) : Near ((n : ℚ) / d) (rne n d : ℕ) := by
  have hd' : (0 : ℚ) < d := by exact_mod_cast hd
  have hr : n % d < d := Nat.mod_lt n hd
  have hn : (n : ℚ) = d * (n / d : ℕ) + (n % d : ℕ) := by exact_mod_cast (Nat.div_add_mod n d).symm
  have hq : (n : ℚ) / d * d = n := div_mul_cancel₀ _ hd'.ne'
  have key : ∀ a b : ℚ, a * d ≤ b * d → a ≤ b := fun a b h => le_of_mul_le_mul_right h hd'
  have keq : ∀ a b : ℚ, a = b → a * d = b * d := fun a b h => by rw [h]
  have e1 : (2 * ((n : ℚ) / d) - 1) * d = 2 * n - d := by rw [sub_mul, mul_assoc, hq]; ring
  have e2 : (2 * ((n : ℚ) / d) + 1) * d = 2 * n + d := by rw [add_mul, mul_assoc, hq]; ring
  unfold rne Near
  simp only []
  split_ifs with h1 h2 h3
  · have h1' : (2 : ℚ) * (n % d : ℕ) < d := by exact_mod_cast h1
    have h0 : (0 : ℚ) ≤ (n % d : ℕ) := Nat.cast_nonneg _
    refine ⟨key _ _ ?_, key _ _ ?_, ?_⟩
    · rw [e1]; simp only [Int.cast_natCast, Nat.cast_add, Nat.cast_one, Int.cast_add, Int.cast_one]; linarith
    · rw [e2]; simp only [Int.cast_natCast, Nat.cast_add, Nat.cast_one, Int.cast_add, Int.cast_one]; linarith
    · rintro (h | h)
      · have := keq _ _ h; rw [e1] at this; simp only [Int.cast_natCast, Nat.cast_add, Nat.cast_one, Int.cast_add, Int.cast_one] at this; linarith
      · have := keq _ _ h; rw [e2] at this; simp only [Int.cast_natCast, Nat.cast_add, Nat.cast_one, Int.cast_add, Int.cast_one] at this; linarith
  · have h2' : (d : ℚ) < 2 * (n % d : ℕ) := by exact_mod_cast h2
    have hr' : ((n % d : ℕ) : ℚ) < d := by exact_mod_cast hr
    refine ⟨key _ _ ?_, key _ _ ?_, ?_⟩
    · rw [e1]; simp only [Int.cast_natCast, Nat.cast_add, Nat.cast_one, Int.cast_add, Int.cast_one]; linarith
    · rw [e2]; simp only [Int.cast_natCast, Nat.cast_add, Nat.cast_one, Int.cast_add, Int.cast_one]; linarith
    · rintro (h | h)
      · have := keq _ _ h; rw [e1] at this; simp only [Int.cast_natCast, Nat.cast_add, Nat.cast_one, Int.cast_add, Int.cast_one] at this; linarith
      · have := keq _ _ h; rw [e2] at this; simp only [Int.cast_natCast, Nat.cast_add, Nat.cast_one, Int.cast_add, Int.cast_one] at this; linarith
  · have h4 : (2 : ℚ) * (n % d : ℕ) = d := by
      have : 2 * (n % d) = d := by omega
      exact_mod_cast this
    refine ⟨key _ _ ?_, key _ _ ?_, ?_⟩
    · rw [e1]; simp only [Int.cast_natCast, Nat.cast_add, Nat.cast_one, Int.cast_add, Int.cast_one]; linarith
    · rw [e2]; simp only [Int.cast_natCast, Nat.cast_add, Nat.cast_one, Int.cast_add, Int.cast_one]; linarith
    · intro _; omega
  · have h4 : (2 : ℚ) * (n % d : ℕ) = d := by
      have : 2 * (n % d) = d := by omega
      exact_mod_cast this
    refine ⟨key _ _ ?_, key _ _ ?_, ?_⟩
    · rw [e1]; simp only [Int.cast_natCast, Nat.cast_add, Nat.cast_one, Int.cast_add, Int.cast_one]; linarith
    · rw [e2]; simp only [Int.cast_natCast, Nat.cast_add, Nat.cast_one, Int.cast_add, Int.cast_one]; linarith
    · intro _; omega

theorem Near.mono {q₁ q₂ : ℚ} {m₁ m₂ : ℤ} (h₁ : Near q₁ m₁) (h₂ : Near q₂ m₂)
    (h : q₁ ≤ q₂) : m₁ ≤ m₂ := by
  obtain ⟨_, b1, c1⟩ := h₁
  obtain ⟨a2, _, c2⟩ := h₂
  by_contra hlt
  have hlt' : m₂ + 1 ≤ m₁ := by omega
  have hq : ((m₂ + 1 : ℤ) : ℚ) ≤ (m₁ : ℚ) := by exact_mod_cast hlt'
  push_cast at hq
  have e1 : 2 * (m₁ : ℚ) = 2 * q₁ + 1 := by linarith
  have e2 : 2 * (m₂ : ℚ) = 2 * q₂ - 1 := by linarith
  have e3 : (m₁ : ℚ) = m₂ + 1 := by linarith
  have e4 : m₁ = m₂ + 1 := by exact_mod_cast e3
  have := c1 (Or.inr e1)
  have := c2 (Or.inl e2)
  omega

theorem Near.eq_of_int {k m : ℤ} (h : Near (k : ℚ) m) : m = k := by
  obtain ⟨a, b, _⟩ := h
  have a' : 2 * k - 1 ≤ 2 * m := by exact_mod_cast a
  have b' : 2 * m ≤ 2 * k + 1 := by exact_mod_cast b
  omega

/-- A nearest integer to a value between two integers lies between them. -/
theorem Near.bounds {q : ℚ} {m : ℤ} (lo hi : ℤ) (h : Near q m) (h1 : (lo : ℚ) ≤ q)
    (h2 : q ≤ hi) :
    lo ≤ m ∧ m ≤ hi := by
  obtain ⟨a, b, _⟩ := h
  have a' : (2 * lo - 1 : ℚ) ≤ 2 * m := by linarith
  have b' : (2 * m : ℚ) ≤ 2 * hi + 1 := by linarith
  have a'' : 2 * lo - 1 ≤ 2 * m := by exact_mod_cast a'
  have b'' : 2 * m ≤ 2 * hi + 1 := by exact_mod_cast b'
  omega


theorem two_zpow_pos (j : ℤ) : (0 : ℚ) < (2 : ℚ) ^ j := zpow_pos (by norm_num) j

/-- What `roundTo` computes on a positive fraction: a scale `s` that brings the
value into `[2^(p-1), 2^p)` and a nearest-even integer `m` of the scaled value;
the result is `m / 2^s`. -/
theorem roundTo_spec (p : ℕ) (x : Frac) (hn : 0 < x.num) (hd : 0 < x.den) :
    ∃ (s : ℤ) (m : ℕ), (roundTo p x).toRat = (m : ℚ) / (2 : ℚ) ^ s ∧
      (2 : ℚ) ^ ((p : ℤ) - 1) ≤ x.toRat * (2 : ℚ) ^ s ∧
      x.toRat * (2 : ℚ) ^ s < (2 : ℚ) ^ (p : ℤ) ∧
      Near (x.toRat * (2 : ℚ) ^ s) (m : ℕ) := by
  have hnat : ((x.num.natAbs : ℕ) : ℚ) = (x.num : ℚ) := by
    rw [Nat.cast_natAbs, abs_of_pos hn]
  have hnpos : 0 < x.num.natAbs := Int.natAbs_pos.mpr hn.ne'
  obtain ⟨e1, e2⟩ := ilog2_spec x.num.natAbs x.den hnpos hd
  rw [hnat] at e1 e2
  refine ⟨(p : ℤ) - 1 - ilog2 x.num.natAbs x.den,
    rne (x.num.natAbs * 2 ^ ((p : ℤ) - 1 - ilog2 x.num.natAbs x.den).toNat)
      (x.den * 2 ^ (-((p : ℤ) - 1 - ilog2 x.num.natAbs x.den)).toNat), ?_, ?_, ?_, ?_⟩
  · unfold roundTo
    rw [if_neg hn.ne']
    simp only [Frac.toRat, Int.sign_eq_one_of_pos hn, one_mul]
    rw [zpow_two_split ((p : ℤ) - 1 - ilog2 x.num.natAbs x.den)]
    have h1 : (0 : ℚ) < ((2 ^ ((p : ℤ) - 1 - ilog2 x.num.natAbs x.den).toNat : ℕ) : ℚ) := by
      positivity
    have h2 : (0 : ℚ) < ((2 ^ (-((p : ℤ) - 1 - ilog2 x.num.natAbs x.den)).toNat : ℕ) : ℚ) := by
      positivity
    rw [Int.cast_natCast, Nat.cast_mul]
    field_simp
  · calc (2 : ℚ) ^ ((p : ℤ) - 1)
        = (2 : ℚ) ^ ilog2 x.num.natAbs x.den *
            (2 : ℚ) ^ ((p : ℤ) - 1 - ilog2 x.num.natAbs x.den) := by
          rw [← zpow_add₀ (by norm_num : (2 : ℚ) ≠ 0)]
          congr 1
          ring
      _ ≤ x.toRat * (2 : ℚ) ^ ((p : ℤ) - 1 - ilog2 x.num.natAbs x.den) :=
          mul_le_mul_of_nonneg_right e1 (two_zpow_pos _).le
  · calc x.toRat * (2 : ℚ) ^ ((p : ℤ) - 1 - ilog2 x.num.natAbs x.den)
        < (2 : ℚ) ^ (ilog2 x.num.natAbs x.den + 1) *
            (2 : ℚ) ^ ((p : ℤ) - 1 - ilog2 x.num.natAbs x.den) :=
          mul_lt_mul_of_pos_right e2 (two_zpow_pos _)
      _ = (2 : ℚ) ^ (p : ℤ) := by
          rw [← zpow_add₀ (by norm_num : (2 : ℚ) ≠ 0)]
          congr 1
          ring
  · have h := rne_spec (x.num.natAbs * 2 ^ ((p : ℤ) - 1 - ilog2 x.num.natAbs x.den).toNat)
      (x.den * 2 ^ (-((p : ℤ) - 1 - ilog2 x.num.natAbs x.den)).toNat) (by positivity)
    have e : x.toRat * (2 : ℚ) ^ ((p : ℤ) - 1 - ilog2 x.num.natAbs x.den) =
        ((x.num.natAbs * 2 ^ ((p : ℤ) - 1 - ilog2 x.num.natAbs x.den).toNat : ℕ) : ℚ) /
        ((x.den * 2 ^ (-((p : ℤ) - 1 - ilog2 x.num.natAbs x.den)).toNat : ℕ) : ℚ) := by
      rw [zpow_two_split, Nat.cast_mul, Nat.cast_mul, hnat, mul_div_mul_comm]
      rfl
    rw [e]
    exact h

theorem roundTo_den_pos (p : ℕ) (x : Frac) : 0 < (roundTo p x).den := by
  unfold roundTo
  split_ifs
  · exact Nat.one_pos
  · positivity

theorem roundTo_NN (p : ℕ) {x : Frac} (hx : x.NN) : (roundTo p x).NN := by
  refine ⟨?_, roundTo_den_pos p x⟩
  unfold roundTo
  split_ifs with h
  · exact le_rfl
  · have hpos : 0 < x.num := lt_of_le_of_ne hx.1 (Ne.symm h)
    simp only [Int.sign_eq_one_of_pos hpos, one_mul]
    exact Int.natCast_nonneg _

theorem roundTo_zero (p : ℕ) {x : Frac} (h : x.num = 0) : (roundTo p x).toRat = 0 := by
  unfold roundTo
  rw [if_pos h]
  simp [Frac.toRat]

theorem Frac.toRat_pos_iff {x : Frac} (hd : 0 < x.den) : 0 < x.toRat ↔ 0 < x.num := by
  have hd' : (0 : ℚ) < x.den := by exact_mod_cast hd
  unfold Frac.toRat
  rw [div_pos_iff_of_pos_right hd']
  exact_mod_cast Iff.rfl

theorem two_zpow_le {a b : ℤ} (h : a ≤ b) : (2 : ℚ) ^ a ≤ (2 : ℚ) ^ b :=
  zpow_le_zpow_right₀ (by norm_num) h

theorem two_zpow_natCast (k : ℕ) : (2 : ℚ) ^ (k : ℤ) = ((2 ^ k : ℕ) : ℤ) := by
  rw [zpow_natCast]
  push_cast
  rfl

/-- Rounding is monotone on non-negative values. -/
theorem roundTo_mono (p : ℕ) (hp : 1 ≤ p) {x y : Frac} (hx : x.NN) (hy : y.NN)
    (h : x.toRat ≤ y.toRat) : (roundTo p x).toRat ≤ (roundTo p y).toRat := by
  rcases eq_or_lt_of_le hx.1 with h0 | hxpos
  · rw [roundTo_zero p h0.symm]
    exact (roundTo_NN p hy).toRat_nonneg
  have hxq : 0 < x.toRat := (Frac.toRat_pos_iff hx.2).mpr hxpos
  have hypos : 0 < y.num := (Frac.toRat_pos_iff hy.2).mp (lt_of_lt_of_le hxq h)
  obtain ⟨sx, mx, rx, lx, ux, nx⟩ := roundTo_spec p x hxpos hx.2
  obtain ⟨sy, my, ry, ly, uy, ny⟩ := roundTo_spec p y hypos hy.2
  rw [rx, ry]
  rcases lt_trichotomy sx sy with hlt | heq | hgt
  · exfalso
    have h1 : (2 : ℚ) ^ (p : ℤ) ≤ x.toRat * (2 : ℚ) ^ sy := by
      calc (2 : ℚ) ^ (p : ℤ) = (2 : ℚ) ^ ((p : ℤ) - 1) * (2 : ℚ) ^ (1 : ℤ) := by
            rw [← zpow_add₀ (by norm_num : (2 : ℚ) ≠ 0)]
            congr 1
            ring
        _ ≤ (x.toRat * (2 : ℚ) ^ sx) * (2 : ℚ) ^ (sy - sx) :=
            mul_le_mul lx (two_zpow_le (by omega)) (two_zpow_pos _).le
              (mul_nonneg hxq.le (two_zpow_pos _).le)
        _ = x.toRat * (2 : ℚ) ^ sy := by
            rw [mul_assoc, ← zpow_add₀ (by norm_num : (2 : ℚ) ≠ 0)]
            congr 2
            ring
    have h2 : x.toRat * (2 : ℚ) ^ sy ≤ y.toRat * (2 : ℚ) ^ sy :=
      mul_le_mul_of_nonneg_right h (two_zpow_pos _).le
    linarith
  · subst heq
    have hm : (mx : ℤ) ≤ (my : ℤ) :=
      Near.mono nx ny (mul_le_mul_of_nonneg_right h (two_zpow_pos _).le)
    have hm' : (mx : ℚ) ≤ (my : ℚ) := by exact_mod_cast hm
    exact div_le_div_of_nonneg_right hm' (two_zpow_pos _).le
  · have hp' : ((p : ℤ) - 1) = ((p - 1 : ℕ) : ℤ) := by omega
    have bx : (mx : ℤ) ≤ ((2 ^ p : ℕ) : ℤ) := by
      refine (Near.bounds 0 _ nx ?_ ?_).2
      · simpa using mul_nonneg hxq.le (two_zpow_pos sx).le
      · rw [← two_zpow_natCast]
        exact ux.le
    have byy : ((2 ^ (p - 1) : ℕ) : ℤ) ≤ (my : ℤ) := by
      refine (Near.bounds _ ((my : ℤ) + 1) ny ?_ ?_).1
      · rw [← two_zpow_natCast, ← hp']
        exact ly
      · have := ny.1
        push_cast at this ⊢
        linarith
    have bx' : (mx : ℚ) ≤ (2 : ℚ) ^ (p : ℤ) := by
      rw [two_zpow_natCast]
      exact_mod_cast bx
    have by' : (2 : ℚ) ^ ((p : ℤ) - 1) ≤ (my : ℚ) := by
      rw [hp', two_zpow_natCast]
      exact_mod_cast byy
    calc (mx : ℚ) / (2 : ℚ) ^ sx ≤ (2 : ℚ) ^ (p : ℤ) / (2 : ℚ) ^ sx :=
          div_le_div_of_nonneg_right bx' (two_zpow_pos _).le
      _ = (2 : ℚ) ^ ((p : ℤ) - sx) := by
          rw [zpow_sub₀ (by norm_num : (2 : ℚ) ≠ 0)]
      _ ≤ (2 : ℚ) ^ ((p : ℤ) - 1 - sy) := two_zpow_le (by omega)
      _ = (2 : ℚ) ^ ((p : ℤ) - 1) / (2 : ℚ) ^ sy := by
          rw [zpow_sub₀ (by norm_num : (2 : ℚ) ≠ 0)]
      _ ≤ (my : ℚ) / (2 : ℚ) ^ sy := div_le_div_of_nonneg_right by' (two_zpow_pos _).le

/-- A natural number below `2^p` is a floating-point number of precision `p`:
rounding returns it. -/
theorem roundTo_natCast (p : ℕ) {x : Frac} (hd : 0 < x.den) (N : ℕ) (hx : x.toRat = N)
    (hN : N < 2 ^ p) : (roundTo p x).toRat = N := by
  rcases Nat.eq_zero_or_pos N with h0 | hNpos
  · subst h0
    have hd' : (x.den : ℚ) ≠ 0 := by exact_mod_cast hd.ne'
    have : x.num = 0 := by
      unfold Frac.toRat at hx
      rw [Nat.cast_zero, div_eq_zero_iff] at hx
      rcases hx with hx | hx
      · exact_mod_cast hx
      · exact absurd hx hd'
    rw [roundTo_zero p this]
    simp
  have hxq : 0 < x.toRat := by rw [hx]; exact_mod_cast hNpos
  have hxpos : 0 < x.num := (Frac.toRat_pos_iff hd).mp hxq
  obtain ⟨s, m, r, l, u, n⟩ := roundTo_spec p x hxpos hd
  have hs : 0 ≤ s := by
    by_contra hneg
    have hs1 : s ≤ -1 := by omega
    have h1 : x.toRat * (2 : ℚ) ^ s ≤ (N : ℚ) * (2 : ℚ) ^ (-1 : ℤ) := by
      rw [hx]
      exact mul_le_mul_of_nonneg_left (two_zpow_le hs1) (Nat.cast_nonneg _)
    have h2 : (N : ℚ) < (2 : ℚ) ^ (p : ℤ) := by
      rw [zpow_natCast]
      exact_mod_cast hN
    have h3 : (2 : ℚ) ^ (p : ℤ) = (2 : ℚ) ^ ((p : ℤ) - 1) * 2 := by
      rw [zpow_sub_one₀ (by norm_num : (2 : ℚ) ≠ 0)]
      field_simp
    have h4 : ((2 : ℚ) ^ (-1 : ℤ)) = 1 / 2 := by norm_num
    rw [h4] at h1
    have := two_zpow_pos ((p : ℤ) - 1)
    linarith
  have e : x.toRat * (2 : ℚ) ^ s = (((N * 2 ^ s.toNat : ℕ) : ℤ) : ℚ) := by
    have hs' : s = (s.toNat : ℤ) := by omega
    rw [hx]
    conv_lhs => rw [hs', zpow_natCast]
    push_cast
    rfl
  rw [e] at n
  have hm : (m : ℤ) = ((N * 2 ^ s.toNat : ℕ) : ℤ) := n.eq_of_int
  have hm' : m = N * 2 ^ s.toNat := by exact_mod_cast hm
  rw [r, hm']
  have hs' : s = (s.toNat : ℤ) := by omega
  conv_lhs => rw [hs', zpow_natCast]
  push_cast
  field_simp


namespace Frac

theorem NN_of_toRat_nonneg {x : Frac} (hd : 0 < x.den) (h : 0 ≤ x.toRat) : x.NN := by
  refine ⟨?_, hd⟩
  by_contra hneg
  have hlt : x.num < 0 := not_le.mp hneg
  have h1 : (x.num : ℚ) < 0 := by exact_mod_cast hlt
  have h2 : (0 : ℚ) < x.den := by exact_mod_cast hd
  have : x.toRat < 0 := div_neg_of_neg_of_pos h1 h2
  linarith

theorem den_ofInt (n : ℤ) : 0 < (ofInt n).den := Nat.one_pos

theorem den_add {x y : Frac} (hx : 0 < x.den) (hy : 0 < y.den) : 0 < (add x y).den :=
  Nat.mul_pos hx hy

theorem den_sub {x y : Frac} (hx : 0 < x.den) (hy : 0 < y.den) : 0 < (sub x y).den :=
  Nat.mul_pos hx hy

end Frac

theorem roundTo_intCast (p : ℕ) {x : Frac} (hd : 0 < x.den) (N : ℤ) (h0 : 0 ≤ N)
    (hx : x.toRat = N) (hN : N < 2 ^ p) : (roundTo p x).toRat = N := by
  obtain ⟨n, rfl⟩ := Int.eq_ofNat_of_zero_le h0
  have hx' : x.toRat = (n : ℕ) := by rw [hx]; simp
  have hN' : n < 2 ^ p := by exact_mod_cast hN
  rw [roundTo_natCast p hd n hx' hN']
  simp

theorem roundTo_le_int (p : ℕ) (hp : 1 ≤ p) {x : Frac} (hx : x.NN) (N : ℤ)
    (hle : x.toRat ≤ N) (hN : N < 2 ^ p) : (roundTo p x).toRat ≤ N := by
  have h0 : 0 ≤ N := by
    have : (0 : ℚ) ≤ N := le_trans hx.toRat_nonneg hle
    exact_mod_cast this
  have h := roundTo_mono p hp hx (Frac.NN_ofInt h0) (by rw [Frac.toRat_ofInt]; exact hle)
  rwa [roundTo_intCast p (Frac.den_ofInt N) N h0 (Frac.toRat_ofInt N) hN] at h

theorem int_le_roundTo (p : ℕ) (hp : 1 ≤ p) {x : Frac} (hd : 0 < x.den) (N : ℤ) (h0 : 0 ≤ N)
    (hle : (N : ℚ) ≤ x.toRat) (hN : N < 2 ^ p) : (N : ℚ) ≤ (roundTo p x).toRat := by
  have hx : x.NN := Frac.NN_of_toRat_nonneg hd (le_trans (by exact_mod_cast h0) hle)
  have h := roundTo_mono p hp (Frac.NN_ofInt h0) hx (by rw [Frac.toRat_ofInt]; exact hle)
  rwa [roundTo_intCast p (Frac.den_ofInt N) N h0 (Frac.toRat_ofInt N) hN] at h

/-! ## The stages of the stardate formula -/

theorem dd_mins_NN {m : ℤ} (h0 : 0 ≤ m) : (dd_mins m).NN :=
  roundTo_NN 53 (Frac.NN_div (Frac.NN_ofInt h0) (by decide))

theorem toRat_div_ofInt (x : Frac) (k : ℤ) (hk : 0 < k) :
    (Frac.div x (Frac.ofInt k)).toRat = x.toRat / k := by
  rw [Frac.toRat_div x (Frac.ofInt k) hk (Frac.den_ofInt k), Frac.toRat_ofInt]

theorem toRat_add_ofInt (x : Frac) (k : ℤ) (hx : 0 < x.den) :
    (Frac.add x (Frac.ofInt k)).toRat = x.toRat + k := by
  rw [Frac.toRat_add x (Frac.ofInt k) hx (Frac.den_ofInt k), Frac.toRat_ofInt]

theorem dd_mins_mono {m m' : ℤ} (h0 : 0 ≤ m) (h : m ≤ m') :
    (dd_mins m).toRat ≤ (dd_mins m').toRat := by
  refine roundTo_mono 53 (by norm_num) (Frac.NN_div (Frac.NN_ofInt h0) (by decide))
    (Frac.NN_div (Frac.NN_ofInt (le_trans h0 h)) (by decide)) ?_
  rw [toRat_div_ofInt _ 60 (by norm_num), toRat_div_ofInt _ 60 (by norm_num),
    Frac.toRat_ofInt, Frac.toRat_ofInt]
  have : (m : ℚ) ≤ m' := by exact_mod_cast h
  push_cast
  linarith

theorem dd_mins_le_one {m : ℤ} (h0 : 0 ≤ m) (h1 : m ≤ 59) : (dd_mins m).toRat ≤ 1 := by
  have h := roundTo_le_int 53 (by norm_num) (x := Frac.div (Frac.ofInt m) (Frac.ofInt 60))
    (Frac.NN_div (Frac.NN_ofInt h0) (by decide)) 1 ?_ (by norm_num)
  · simpa using h
  · rw [toRat_div_ofInt _ 60 (by norm_num), Frac.toRat_ofInt]
    have : (m : ℚ) ≤ 59 := by exact_mod_cast h1
    push_cast
    linarith

theorem dd_hours_NN {h m : ℤ} (hh : 0 ≤ h) (hm : 0 ≤ m) : (dd_hours h m).NN :=
  roundTo_NN 53 (Frac.NN_add (dd_mins_NN hm) (Frac.NN_ofInt hh))

theorem dd_hours_le {h m : ℤ} (hh : 0 ≤ h) (hh' : h ≤ 23) (hm : 0 ≤ m) (hm' : m ≤ 59) :
    (dd_hours h m).toRat ≤ ((h + 1 : ℤ) : ℚ) := by
  refine roundTo_le_int 53 (by norm_num) (Frac.NN_add (dd_mins_NN hm) (Frac.NN_ofInt hh))
    (h + 1) ?_ ?_
  · rw [toRat_add_ofInt _ _ (dd_mins_NN hm).2]
    have := dd_mins_le_one hm hm'
    push_cast
    linarith
  · have : (2 : ℤ) ^ 53 = 9007199254740992 := by norm_num
    omega

theorem le_dd_hours {h m : ℤ} (hh : 0 ≤ h) (hh' : h ≤ 23) (hm : 0 ≤ m) :
    (h : ℚ) ≤ (dd_hours h m).toRat := by
  refine int_le_roundTo 53 (by norm_num) (Frac.den_add (dd_mins_NN hm).2 (Frac.den_ofInt h))
    h hh ?_ ?_
  · rw [toRat_add_ofInt _ _ (dd_mins_NN hm).2]
    have := (dd_mins_NN hm).toRat_nonneg
    linarith
  · have : (2 : ℤ) ^ 53 = 9007199254740992 := by norm_num
    omega

/-- The hour stage is monotone in the lexicographic order of (hour, minute). -/
theorem dd_hours_mono {h m h' m' : ℤ} (hh : 0 ≤ h) (hh' : h' ≤ 23) (hm : 0 ≤ m)
    (hm' : m ≤ 59) (hm2 : 0 ≤ m') (hlex : h < h' ∨ (h = h' ∧ m ≤ m')) :
    (dd_hours h m).toRat ≤ (dd_hours h' m').toRat := by
  rcases hlex with hlt | ⟨rfl, hle⟩
  · have a := dd_hours_le hh (by omega) hm hm'
    have b := le_dd_hours (h := h') (m := m') (by omega) hh' hm2
    have c : ((h + 1 : ℤ) : ℚ) ≤ (h' : ℚ) := by exact_mod_cast hlt
    linarith
  · refine roundTo_mono 53 (by norm_num) (Frac.NN_add (dd_mins_NN hm) (Frac.NN_ofInt hh))
      (Frac.NN_add (dd_mins_NN hm2) (Frac.NN_ofInt hh)) ?_
    rw [toRat_add_ofInt _ _ (dd_mins_NN hm).2, toRat_add_ofInt _ _ (dd_mins_NN hm2).2]
    have := dd_mins_mono hm hle
    linarith

theorem dd_day_NN {h m : ℤ} (hh : 0 ≤ h) (hm : 0 ≤ m) : (dd_day h m).NN :=
  roundTo_NN 53 (Frac.NN_div (dd_hours_NN hh hm) (by decide))

theorem dd_day_le_one {h m : ℤ} (hh : 0 ≤ h) (hh' : h ≤ 23) (hm : 0 ≤ m) (hm' : m ≤ 59) :
    (dd_day h m).toRat ≤ 1 := by
  have h1 := roundTo_le_int 53 (by norm_num) (x := Frac.div (dd_hours h m) (Frac.ofInt 24))
    (Frac.NN_div (dd_hours_NN hh hm) (by decide)) 1 ?_ (by norm_num)
  · simpa using h1
  · rw [toRat_div_ofInt _ 24 (by norm_num)]
    have a := dd_hours_le hh hh' hm hm'
    have b : ((h + 1 : ℤ) : ℚ) ≤ 24 := by exact_mod_cast (by omega : h + 1 ≤ 24)
    push_cast at a b ⊢
    linarith

theorem dd_day_mono {h m h' m' : ℤ} (hh : 0 ≤ h) (hh' : h' ≤ 23) (hm : 0 ≤ m)
    (hm' : m ≤ 59) (hm2 : 0 ≤ m') (hlex : h < h' ∨ (h = h' ∧ m ≤ m')) :
    (dd_day h m).toRat ≤ (dd_day h' m').toRat := by
  have hh2 : 0 ≤ h' := by rcases hlex with a | ⟨a, _⟩ <;> omega
  refine roundTo_mono 53 (by norm_num) (Frac.NN_div (dd_hours_NN hh hm) (by decide))
    (Frac.NN_div (dd_hours_NN hh2 hm2) (by decide)) ?_
  rw [toRat_div_ofInt _ 24 (by norm_num), toRat_div_ofInt _ 24 (by norm_num)]
  have := dd_hours_mono hh hh' hm hm' hm2 hlex
  push_cast
  linarith


theorem two_pow_53 : (2 : ℤ) ^ 53 = 9007199254740992 := by norm_num

theorem two_pow_24 : (2 : ℤ) ^ 24 = 16777216 := by norm_num

theorem dd_sum_NN {d h m : ℤ} (hd : 0 ≤ d) (hh : 0 ≤ h) (hm : 0 ≤ m) : (dd_sum d h m).NN :=
  roundTo_NN 53 (Frac.NN_add (dd_day_NN hh hm) (Frac.NN_ofInt hd))

theorem dd_sum_le {d h m : ℤ} (hd : 0 ≤ d) (hd' : d ≤ 366) (hh : 0 ≤ h) (hh' : h ≤ 23)
    (hm : 0 ≤ m) (hm' : m ≤ 59) : (dd_sum d h m).toRat ≤ ((d + 1 : ℤ) : ℚ) := by
  refine roundTo_le_int 53 (by norm_num) (Frac.NN_add (dd_day_NN hh hm) (Frac.NN_ofInt hd))
    (d + 1) ?_ ?_
  · rw [toRat_add_ofInt _ _ (dd_day_NN hh hm).2]
    have := dd_day_le_one hh hh' hm hm'
    push_cast
    linarith
  · have := two_pow_53
    omega

theorem le_dd_sum {d h m : ℤ} (hd : 0 ≤ d) (hd' : d ≤ 366) (hh : 0 ≤ h) (hm : 0 ≤ m) :
    (d : ℚ) ≤ (dd_sum d h m).toRat := by
  refine int_le_roundTo 53 (by norm_num) (Frac.den_add (dd_day_NN hh hm).2 (Frac.den_ofInt d))
    d hd ?_ ?_
  · rw [toRat_add_ofInt _ _ (dd_day_NN hh hm).2]
    have := (dd_day_NN hh hm).toRat_nonneg
    linarith
  · have := two_pow_53
    omega

theorem dd_sum_mono {d h m h' m' : ℤ} (hd : 0 ≤ d) (hh : 0 ≤ h) (hh' : h' ≤ 23) (hm : 0 ≤ m)
    (hm' : m ≤ 59) (hm2 : 0 ≤ m') (hlex : h < h' ∨ (h = h' ∧ m ≤ m')) :
    (dd_sum d h m).toRat ≤ (dd_sum d h' m').toRat := by
  have hh2 : 0 ≤ h' := by rcases hlex with a | ⟨a, _⟩ <;> omega
  refine roundTo_mono 53 (by norm_num) (Frac.NN_add (dd_day_NN hh hm) (Frac.NN_ofInt hd))
    (Frac.NN_add (dd_day_NN hh2 hm2) (Frac.NN_ofInt hd)) ?_
  rw [toRat_add_ofInt _ _ (dd_day_NN hh hm).2, toRat_add_ofInt _ _ (dd_day_NN hh2 hm2).2]
  have := dd_day_mono hh hh' hm hm' hm2 hlex
  linarith

theorem toRat_sub_one (x : Frac) (hx : 0 < x.den) :
    (Frac.sub x (Frac.ofInt 1)).toRat = x.toRat - 1 := by
  rw [Frac.toRat_sub x (Frac.ofInt 1) hx (Frac.den_ofInt 1), Frac.toRat_ofInt]
  simp

/-- The value before the last rounding of `decdays_double` is a non-negative
fraction when the day of the year is at least 1. -/
theorem dd_sub_NN {d h m : ℤ} (hd : 1 ≤ d) (hd' : d ≤ 366) (hh : 0 ≤ h) (hm : 0 ≤ m) :
    (Frac.sub (dd_sum d h m) (Frac.ofInt 1)).NN := by
  have hs := dd_sum_NN (d := d) (by omega) hh hm
  refine Frac.NN_of_toRat_nonneg (Frac.den_sub hs.2 (Frac.den_ofInt 1)) ?_
  rw [toRat_sub_one _ hs.2]
  have := le_dd_sum (d := d) (m := m) (by omega) hd' hh hm
  have h1 : (1 : ℚ) ≤ (d : ℚ) := by exact_mod_cast hd
  linarith

theorem decdays_double_NN {d h m : ℤ} (hd : 1 ≤ d) (hd' : d ≤ 366) (hh : 0 ≤ h)
    (hm : 0 ≤ m) : (decdays_double d h m).NN :=
  roundTo_NN 53 (dd_sub_NN hd hd' hh hm)

theorem decdays_double_le {d h m : ℤ} (hd : 1 ≤ d) (hd' : d ≤ 366) (hh : 0 ≤ h)
    (hh' : h ≤ 23) (hm : 0 ≤ m) (hm' : m ≤ 59) : (decdays_double d h m).toRat ≤ (d : ℚ) := by
  refine roundTo_le_int 53 (by norm_num) (dd_sub_NN hd hd' hh hm) d ?_ ?_
  · rw [toRat_sub_one _ (dd_sum_NN (d := d) (by omega) hh hm).2]
    have := dd_sum_le (d := d) (by omega) hd' hh hh' hm hm'
    push_cast at this
    linarith
  · have := two_pow_53
    omega

theorem le_decdays_double {d h m : ℤ} (hd : 1 ≤ d) (hd' : d ≤ 366) (hh : 0 ≤ h)
    (hm : 0 ≤ m) : ((d - 1 : ℤ) : ℚ) ≤ (decdays_double d h m).toRat := by
  refine int_le_roundTo 53 (by norm_num) (dd_sub_NN hd hd' hh hm).2 (d - 1) (by omega) ?_ ?_
  · rw [toRat_sub_one _ (dd_sum_NN (d := d) (by omega) hh hm).2]
    have := le_dd_sum (d := d) (m := m) (by omega) hd' hh hm
    push_cast
    linarith
  · have := two_pow_53
    omega

theorem decdays_double_mono {d h m h' m' : ℤ} (hd : 1 ≤ d) (hd' : d ≤ 366) (hh : 0 ≤ h)
    (hh' : h' ≤ 23) (hm : 0 ≤ m) (hm' : m ≤ 59) (hm2 : 0 ≤ m')
    (hlex : h < h' ∨ (h = h' ∧ m ≤ m')) :
    (decdays_double d h m).toRat ≤ (decdays_double d h' m').toRat := by
  have hh2 : 0 ≤ h' := by rcases hlex with a | ⟨a, _⟩ <;> omega
  refine roundTo_mono 53 (by norm_num) (dd_sub_NN hd hd' hh hm) (dd_sub_NN hd hd' hh2 hm2) ?_
  rw [toRat_sub_one _ (dd_sum_NN (d := d) (by omega) hh hm).2,
    toRat_sub_one _ (dd_sum_NN (d := d) (by omega) hh2 hm2).2]
  have := dd_sum_mono (d := d) (by omega) hh hh' hm hm' hm2 hlex
  linarith

theorem decdays_NN {d h m : ℤ} (hd : 1 ≤ d) (hd' : d ≤ 366) (hh : 0 ≤ h) (hm : 0 ≤ m) :
    (decdays d h m).NN :=
  roundTo_NN 24 (decdays_double_NN hd hd' hh hm)

theorem decdays_le {d h m : ℤ} (hd : 1 ≤ d) (hd' : d ≤ 366) (hh : 0 ≤ h) (hh' : h ≤ 23)
    (hm : 0 ≤ m) (hm' : m ≤ 59) : (decdays d h m).toRat ≤ (d : ℚ) := by
  refine roundTo_le_int 24 (by norm_num) (decdays_double_NN hd hd' hh hm) d
    (decdays_double_le hd hd' hh hh' hm hm') ?_
  have := two_pow_24
  omega

theorem le_decdays {d h m : ℤ} (hd : 1 ≤ d) (hd' : d ≤ 366) (hh : 0 ≤ h) (hm : 0 ≤ m) :
    ((d - 1 : ℤ) : ℚ) ≤ (decdays d h m).toRat := by
  refine int_le_roundTo 24 (by norm_num) (decdays_double_NN hd hd' hh hm).2 (d - 1) (by omega)
    (le_decdays_double hd hd' hh hm) ?_
  have := two_pow_24
  omega

theorem decdays_mono {d h m h' m' : ℤ} (hd : 1 ≤ d) (hd' : d ≤ 366) (hh : 0 ≤ h)
    (hh' : h' ≤ 23) (hm : 0 ≤ m) (hm' : m ≤ 59) (hm2 : 0 ≤ m')
    (hlex : h < h' ∨ (h = h' ∧ m ≤ m')) :
    (decdays d h m).toRat ≤ (decdays d h' m').toRat := by
  have hh2 : 0 ≤ h' := by rcases hlex with a | ⟨a, _⟩ <;> omega
  exact roundTo_mono 24 (by norm_num) (decdays_double_NN hd hd' hh hm)
    (decdays_double_NN hd hd' hh2 hm2) (decdays_double_mono hd hd' hh hh' hm hm' hm2 hlex)

/-- The integer year offset without the truncating division: the quotient is
`0` for year 0 and the ordinary quotient from year 1 on. -/
theorem yearoffset_int_eq {y : ℤ} (h0 : 0 ≤ y) :
    yearoffset_int y = y * 365 + (if y = 0 then 0 else (y - 1) / 4) := by
  unfold yearoffset_int
  split_ifs with h
  · subst h
    rfl
  · rw [Int.tdiv_eq_ediv (by omega) (by norm_num)]

theorem yearoffset_int_bounds {y : ℤ} (h0 : 0 ≤ y) (h1 : y ≤ 99) :
    0 ≤ yearoffset_int y ∧ yearoffset_int y ≤ 36159 := by
  rw [yearoffset_int_eq h0]
  split_ifs <;> omega

/-- The conversion of the year offset to `float` is exact. -/
theorem yearoffset_toRat {y : ℤ} (h0 : 0 ≤ y) (h1 : y ≤ 99) :
    (yearoffset y).toRat = (yearoffset_int y : ℚ) := by
  obtain ⟨a, b⟩ := yearoffset_int_bounds h0 h1
  refine roundTo_intCast 24 (Frac.den_ofInt _) _ a (Frac.toRat_ofInt _) ?_
  have := two_pow_24
  omega

theorem yearoffset_NN {y : ℤ} (h0 : 0 ≤ y) (h1 : y ≤ 99) : (yearoffset y).NN :=
  roundTo_NN 24 (Frac.NN_ofInt (yearoffset_int_bounds h0 h1).1)

theorem stardate_days_NN {y d h m : ℤ} (hy : 0 ≤ y) (hy' : y ≤ 99) (hd : 1 ≤ d) (hd' : d ≤ 366)
    (hh : 0 ≤ h) (hm : 0 ≤ m) : (stardate_days y d h m).NN :=
  roundTo_NN 24 (Frac.NN_add (yearoffset_NN hy hy') (decdays_NN hd hd' hh hm))

theorem stardate_days_le {y d h m : ℤ} (hy : 0 ≤ y) (hy' : y ≤ 99) (hd : 1 ≤ d) (hd' : d ≤ 366)
    (hh : 0 ≤ h) (hh' : h ≤ 23) (hm : 0 ≤ m) (hm' : m ≤ 59) :
    (stardate_days y d h m).toRat ≤ ((yearoffset_int y + d : ℤ) : ℚ) := by
  refine roundTo_le_int 24 (by norm_num)
    (Frac.NN_add (yearoffset_NN hy hy') (decdays_NN hd hd' hh hm)) _ ?_ ?_
  · rw [Frac.toRat_add _ _ (yearoffset_NN hy hy').2 (decdays_NN hd hd' hh hm).2,
      yearoffset_toRat hy hy']
    have := decdays_le hd hd' hh hh' hm hm'
    push_cast
    linarith
  · have := two_pow_24
    have := yearoffset_int_bounds hy hy'
    omega

theorem le_stardate_days {y d h m : ℤ} (hy : 0 ≤ y) (hy' : y ≤ 99) (hd : 1 ≤ d) (hd' : d ≤ 366)
    (hh : 0 ≤ h) (hm : 0 ≤ m) :
    ((yearoffset_int y + d - 1 : ℤ) : ℚ) ≤ (stardate_days y d h m).toRat := by
  have hb := yearoffset_int_bounds hy hy'
  refine int_le_roundTo 24 (by norm_num)
    (Frac.den_add (yearoffset_NN hy hy').2 (decdays_NN hd hd' hh hm).2) _ (by omega) ?_ ?_
  · rw [Frac.toRat_add _ _ (yearoffset_NN hy hy').2 (decdays_NN hd hd' hh hm).2,
      yearoffset_toRat hy hy']
    have := le_decdays hd hd' hh hm
    push_cast at this ⊢
    linarith
  · have := two_pow_24
    omega

theorem stardate_days_mono {y d h m h' m' : ℤ} (hy : 0 ≤ y) (hy' : y ≤ 99) (hd : 1 ≤ d)
    (hd' : d ≤ 366) (hh : 0 ≤ h) (hh' : h' ≤ 23) (hm : 0 ≤ m) (hm' : m ≤ 59) (hm2 : 0 ≤ m')
    (hlex : h < h' ∨ (h = h' ∧ m ≤ m')) :
    (stardate_days y d h m).toRat ≤ (stardate_days y d h' m').toRat := by
  have hh2 : 0 ≤ h' := by rcases hlex with a | ⟨a, _⟩ <;> omega
  refine roundTo_mono 24 (by norm_num)
    (Frac.NN_add (yearoffset_NN hy hy') (decdays_NN hd hd' hh hm))
    (Frac.NN_add (yearoffset_NN hy hy') (decdays_NN hd hd' hh2 hm2)) ?_
  rw [Frac.toRat_add _ _ (yearoffset_NN hy hy').2 (decdays_NN hd hd' hh hm).2,
    Frac.toRat_add _ _ (yearoffset_NN hy hy').2 (decdays_NN hd hd' hh2 hm2).2]
  have := decdays_mono hd hd' hh hh' hm hm' hm2 hlex
  linarith

theorem stardate_scale_NN : stardate_scale.NN := by
  unfold Frac.NN
  decide

/-- The scaling and the two roundings that turn days into the stardate, on an
arbitrary day count. -/
theorem scale_mono {x y : Frac} (hx : x.NN) (hy : y.NN) (h : x.toRat ≤ y.toRat) :
    (f32 (f64 (Frac.mul x stardate_scale))).toRat ≤
      (f32 (f64 (Frac.mul y stardate_scale))).toRat := by
  refine roundTo_mono 24 (by norm_num) (roundTo_NN 53 (Frac.NN_mul hx stardate_scale_NN))
    (roundTo_NN 53 (Frac.NN_mul hy stardate_scale_NN)) ?_
  refine roundTo_mono 53 (by norm_num) (Frac.NN_mul hx stardate_scale_NN)
    (Frac.NN_mul hy stardate_scale_NN) ?_
  rw [Frac.toRat_mul, Frac.toRat_mul]
  exact mul_le_mul_of_nonneg_right h stardate_scale_NN.toRat_nonneg

theorem stardate_NN {y d h m : ℤ} (hy : 0 ≤ y) (hy' : y ≤ 99) (hd : 1 ≤ d) (hd' : d ≤ 366)
    (hh : 0 ≤ h) (hm : 0 ≤ m) : (stardate y d h m).NN :=
  roundTo_NN 24 (roundTo_NN 53
    (Frac.NN_mul (stardate_days_NN hy hy' hd hd' hh hm) stardate_scale_NN))

/-- Within one day the stardate does not decrease with the time of day. -/
theorem stardate_mono_time {y d h m h' m' : ℤ} (va : ValidInput y d h m)
    (vb : ValidInput y d h' m') (hlex : h < h' ∨ (h = h' ∧ m ≤ m')) :
    (stardate y d h m).toRat ≤ (stardate y d h' m').toRat := by
  obtain ⟨⟨y0, y1⟩, ⟨d0, d1⟩, ⟨h0, h1⟩, ⟨m0, m1⟩⟩ := va
  obtain ⟨-, -, ⟨h0', h1'⟩, ⟨m0', m1'⟩⟩ := vb
  exact scale_mono (stardate_days_NN y0 y1 d0 d1 h0 m0) (stardate_days_NN y0 y1 d0 d1 h0' m0')
    (stardate_days_mono y0 y1 d0 d1 h0 h1' m0 m1 m0' hlex)

/-- When the whole days counted for `a` (year offset plus day of the year) do not
exceed the whole days counted before the day of `b`, the stardate of `a` does not
exceed that of `b`, whatever the times of day. -/
theorem stardate_mono_days {y d h m y' d' h' m' : ℤ} (va : ValidInput y d h m)
    (vb : ValidInput y' d' h' m')
    (hdays : yearoffset_int y + d ≤ yearoffset_int y' + d' - 1) :
    (stardate y d h m).toRat ≤ (stardate y' d' h' m').toRat := by
  obtain ⟨⟨y0, y1⟩, ⟨d0, d1⟩, ⟨h0, h1⟩, ⟨m0, m1⟩⟩ := va
  obtain ⟨⟨y0', y1'⟩, ⟨d0', d1'⟩, ⟨h0', h1'⟩, ⟨m0', m1'⟩⟩ := vb
  refine scale_mono (stardate_days_NN y0 y1 d0 d1 h0 m0)
    (stardate_days_NN y0' y1' d0' d1' h0' m0') ?_
  have a := stardate_days_le y0 y1 d0 d1 h0 h1 m0 m1
  have b := le_stardate_days y0' y1' d0' d1' h0' m0'
  have c : ((yearoffset_int y + d : ℤ) : ℚ) ≤ ((yearoffset_int y' + d' - 1 : ℤ) : ℚ) := by
    exact_mod_cast hdays
  linarith

theorem stardate_whole_eq_floor {y d h m : ℤ} (v : ValidInput y d h m) :
    stardate_whole y d h m = ⌊(stardate y d h m).toRat⌋ := by
  obtain ⟨⟨y0, y1⟩, ⟨d0, d1⟩, ⟨h0, h1⟩, ⟨m0, m1⟩⟩ := v
  exact Frac.trunc_eq_floor (stardate_NN y0 y1 d0 d1 h0 m0)

/-- The year offset grows by at least 365 from one year to any later one. -/
theorem yearoffset_int_step {y y' : ℤ} (h0 : 0 ≤ y) (h : y < y') :
    yearoffset_int y + 365 ≤ yearoffset_int y' := by
  rw [yearoffset_int_eq h0, yearoffset_int_eq (by omega)]
  split_ifs <;> omega


/-! ## Strings -/

theorem digitChar_ne_NUL (n : ℕ) : Nat.digitChar (n % 10) ≠ NUL := by
  have h : n % 10 < 10 := Nat.mod_lt _ (by norm_num)
  generalize n % 10 = k at h
  interval_cases k <;> decide

theorem toDigitsCore_ne_NUL : ∀ (fuel n : ℕ) (ds : List Char), (∀ c ∈ ds, c ≠ NUL) →
    ∀ c ∈ Nat.toDigitsCore 10 fuel n ds, c ≠ NUL := by
  intro fuel
  induction fuel with
  | zero => intro n ds h; simpa [Nat.toDigitsCore] using h
  | succ fuel ih =>
    intro n ds h
    have h' : ∀ c ∈ Nat.digitChar (n % 10) :: ds, c ≠ NUL := by
      intro c hc
      rcases List.mem_cons.mp hc with rfl | hc
      · exact digitChar_ne_NUL _
      · exact h c hc
    simp only [Nat.toDigitsCore]
    split_ifs
    · exact h'
    · exact ih _ _ h'

theorem toDigits_ne_NUL (n : ℕ) : ∀ c ∈ Nat.toDigits 10 n, c ≠ NUL :=
  toDigitsCore_ne_NUL _ _ _ (by simp)

theorem padLeft_ne_NUL (w : ℕ) (c : Char) (s : List Char) (hc : c ≠ NUL)
    (hs : ∀ x ∈ s, x ≠ NUL) : ∀ x ∈ padLeft w c s, x ≠ NUL := by
  intro x hx
  unfold padLeft at hx
  rcases List.mem_append.mp hx with h | h
  · rw [List.eq_of_mem_replicate h]; exact hc
  · exact hs x h

theorem fmt_0d_ne_NUL (w : ℕ) (n : ℤ) : ∀ x ∈ fmt_0d w n, x ≠ NUL := by
  intro x hx
  unfold fmt_0d at hx
  split_ifs at hx
  · rcases List.mem_cons.mp hx with rfl | h
    · decide
    · exact padLeft_ne_NUL _ _ _ (by decide) (toDigits_ne_NUL _) x h
  · exact padLeft_ne_NUL _ _ _ (by decide) (toDigits_ne_NUL _) x hx

theorem fmt_d_ne_NUL (w : ℕ) (n : ℤ) : ∀ x ∈ fmt_d w n, x ≠ NUL := by
  intro x hx
  unfold fmt_d at hx
  refine padLeft_ne_NUL _ _ _ (by decide) ?_ x hx
  intro y hy
  rcases List.mem_append.mp hy with h | h
  · split_ifs at h
    · rw [List.mem_singleton.mp h]; decide
    · simp at h
  · exact toDigits_ne_NUL _ y h

theorem stardate_format_ne_NUL (y d h m : ℤ) : ∀ x ∈ stardate_format y d h m, x ≠ NUL := by
  intro x hx
  unfold stardate_format at hx
  rcases List.mem_append.mp hx with h1 | h1
  · rcases List.mem_append.mp h1 with h2 | h2
    · exact fmt_0d_ne_NUL _ _ x h2
    · rw [List.mem_singleton.mp h2]; decide
  · exact fmt_d_ne_NUL _ _ x h1

theorem takeWhile_append_stop (p : Char → Bool) (s r : List Char) (a : Char)
    (hs : ∀ x ∈ s, p x = true) (ha : p a = false) : (s ++ a :: r).takeWhile p = s := by
  induction s with
  | nil => simp [List.takeWhile, ha]
  | cons c s ih =>
    have hc : p c = true := hs c (List.mem_cons_self _ _)
    rw [List.cons_append, List.takeWhile_cons, hc]
    simp only [if_true]
    rw [ih (fun x hx => hs x (List.mem_cons_of_mem _ hx))]

/-- The C string of a buffer that holds `s`, a terminator, and anything
behind it. -/
theorem cstr_append_NUL (s r : List Char) (hs : ∀ x ∈ s, x ≠ NUL) :
    cstr (s ++ NUL :: r) = String.mk s := by
  unfold cstr
  rw [takeWhile_append_stop _ s r NUL (fun x hx => by simpa using hs x hx) (by simp)]

theorem snprintf_eq (buf : List Char) (size : ℕ) (s : List Char) :
    snprintf buf size s = s.take (size - 1) ++ NUL :: buf.drop ((s.take (size - 1)).length + 1) := by
  simp [snprintf]

theorem cstr_snprintf (buf : List Char) (size : ℕ) (s : List Char) (hs : ∀ x ∈ s, x ≠ NUL) :
    cstr (snprintf buf size s) = String.mk (s.take (size - 1)) := by
  rw [snprintf_eq]
  exact cstr_append_NUL _ _ (fun x hx => hs x (List.mem_of_mem_take hx))

theorem strftime_fit (buf : List Char) (size : ℕ) (s : List Char) (h : s.length < size) :
    strftime buf size s = s ++ NUL :: buf.drop (s.length + 1) := by
  unfold strftime
  rw [if_pos h, snprintf_eq, List.take_of_length_le (by omega)]

theorem atoi_append_NUL (s r : List Char) (hs : ∀ x ∈ s, x.isDigit = true) :
    atoi (s ++ NUL :: r) = atoi (s ++ [NUL]) := by
  unfold atoi
  rw [takeWhile_append_stop _ s r NUL hs (by decide),
    takeWhile_append_stop _ s [] NUL hs (by decide)]


theorem fmt2_table : ∀ n < 100, (∀ x ∈ fmt_0u 2 n, x.isDigit = true) ∧
    atoi (fmt_0u 2 n ++ [NUL]) = (n : ℤ) ∧ (fmt_0u 2 n).length = 2 := by
  decide

theorem fmt3_table : ∀ n < 367, (∀ x ∈ fmt_0u 3 n, x.isDigit = true) ∧
    atoi (fmt_0u 3 n ++ [NUL]) = (n : ℤ) ∧ (fmt_0u 3 n).length = 3 := by
  decide

/-- Reading back a two-digit field written by `strftime` into a three-byte
buffer. -/
theorem atoi_strftime2 (buf : List Char) (n : ℕ) (h : n < 100) :
    atoi (strftime buf 3 (fmt_0u 2 n)) = (n : ℤ) := by
  obtain ⟨a, b, c⟩ := fmt2_table n h
  rw [strftime_fit _ _ _ (by omega), atoi_append_NUL _ _ a, b]

/-- Reading back a three-digit field written by `strftime` into a four-byte
buffer. -/
theorem atoi_strftime3 (buf : List Char) (n : ℕ) (h : n < 367) :
    atoi (strftime buf 4 (fmt_0u 3 n)) = (n : ℤ) := by
  obtain ⟨a, b, c⟩ := fmt3_table n h
  rw [strftime_fit _ _ _ (by omega), atoi_append_NUL _ _ a, b]

/-- The text `stardate_update` sets: the first eight characters of the formatted
output, for the year within the century, the day of the year counted from 1, the
hour and the minute of `t`. -/
theorem stardate_update_text (t : Tm) (u : ℕ) (w : Watch) (ht : t.inRange) :
    (stardate_update t u w).text_stardate_layer =
      some (String.mk ((stardate_format ((t.tm_year % 100 : ℕ) : ℤ) ((t.tm_yday + 1 : ℕ) : ℤ)
        (t.tm_hour : ℤ) (t.tm_min : ℤ)).take 8)) := by
  obtain ⟨h1, h2, h3⟩ := ht
  have e1 : atoi (strftime w.year 3 (strf_y t)) = ((t.tm_year % 100 : ℕ) : ℤ) :=
    atoi_strftime2 _ _ (Nat.mod_lt _ (by norm_num))
  have e2 : atoi (strftime w.doy 4 (strf_j t)) = ((t.tm_yday + 1 : ℕ) : ℤ) :=
    atoi_strftime3 _ _ (by omega)
  have e3 : atoi (strftime w.hour 3 (strf_H t)) = (t.tm_hour : ℤ) :=
    atoi_strftime2 _ _ (by omega)
  have e4 : atoi (strftime w.mins 3 (strf_M t)) = (t.tm_min : ℤ) :=
    atoi_strftime2 _ _ (by omega)
  simp only [stardate_update, e1, e2, e3, e4]
  rw [cstr_snprintf _ _ _ (stardate_format_ne_NUL _ _ _ _)]


/-! ## The stardate: sign, order, size (claims C1, C2, C3, C5) -/

theorem stardate_whole_nonneg {y d h m : ℤ} (v : ValidInput y d h m) :
    0 ≤ stardate_whole y d h m := by
  rw [stardate_whole_eq_floor v]
  obtain ⟨⟨y0, y1⟩, ⟨d0, d1⟩, ⟨h0, h1⟩, ⟨m0, m1⟩⟩ := v
  exact Int.floor_nonneg.mpr (stardate_NN y0 y1 d0 d1 h0 m0).toRat_nonneg

theorem stardate_whole_le_of_le {y d h m y' d' h' m' : ℤ} (va : ValidInput y d h m)
    (vb : ValidInput y' d' h' m')
    (hle : (stardate y d h m).toRat ≤ (stardate y' d' h' m').toRat) :
    stardate_whole y d h m ≤ stardate_whole y' d' h' m' := by
  rw [stardate_whole_eq_floor va, stardate_whole_eq_floor vb]
  exact Int.floor_le_floor hle

/-- Claim C1. For inputs in range the whole part of the stardate is
non-negative, and for two inputs `a ≤ b` in the order of (year, day of the year,
hour, minute) that lie in the same year, or with the day of the year of `a` at
most 365, the whole part for `a` is at most the whole part for `b`. -/
theorem C1_stardate_whole_nonneg_monotone (ya da ha ma yb db hb mb : ℤ)
    (va : ValidInput ya da ha ma) (vb : ValidInput yb db hb mb)
    (hle : LexLe ya da ha ma yb db hb mb) (hleap : ya = yb ∨ da ≤ 365) :
    0 ≤ stardate_whole ya da ha ma ∧ 0 ≤ stardate_whole yb db hb mb ∧
      stardate_whole ya da ha ma ≤ stardate_whole yb db hb mb := by
  refine ⟨stardate_whole_nonneg va, stardate_whole_nonneg vb,
    stardate_whole_le_of_le va vb ?_⟩
  have va' := va
  have vb' := vb
  obtain ⟨⟨y0, y1⟩, ⟨d0, d1⟩, -, -⟩ := va'
  obtain ⟨⟨y0', y1'⟩, ⟨d0', d1'⟩, -, -⟩ := vb'
  rcases hle with hy | ⟨rfl, hd | ⟨rfl, ht⟩⟩
  · have hstep := yearoffset_int_step y0 hy
    have hd365 : da ≤ 365 := by
      rcases hleap with h | h
      · omega
      · exact h
    exact stardate_mono_days va vb (by omega)
  · exact stardate_mono_days va vb (by omega)
  · exact stardate_mono_time va vb ht

/-- Witness of C1 across a year boundary: the last minute of day 365 of year 15
and the first minute of year 16. -/
theorem C1_witness :
    ValidInput 15 365 23 59 ∧ ValidInput 16 1 0 0 ∧ LexLe 15 365 23 59 16 1 0 0 ∧
      (0 ≤ stardate_whole 15 365 23 59 ∧ 0 ≤ stardate_whole 16 1 0 0 ∧
        stardate_whole 15 365 23 59 ≤ stardate_whole 16 1 0 0) :=
  ⟨by unfold ValidInput; decide, by unfold ValidInput; decide, by unfold LexLe; decide,
    C1_stardate_whole_nonneg_monotone 15 365 23 59 16 1 0 0 (by unfold ValidInput; decide)
      (by unfold ValidInput; decide) (by unfold LexLe; decide) (by decide)⟩

theorem stardate_whole_max : stardate_whole 99 365 23 59 = 99999 := by decide

theorem padLeft_length (w : ℕ) (c : Char) (s : List Char) :
    (padLeft w c s).length = max w s.length := by
  unfold padLeft
  rw [List.length_append, List.length_replicate]
  omega

theorem fmt_0d_five_digits {n : ℤ} (h0 : 0 ≤ n) (h1 : n ≤ 99999) : (fmt_0d 5 n).length = 5 := by
  unfold fmt_0d
  rw [if_neg (by omega), padLeft_length]
  have hlt : n.natAbs < 10 ^ 5 := by omega
  have := Nat.toDigitsCore_length 10 (by norm_num) (n.natAbs + 1) n.natAbs 5 hlt (by norm_num)
  unfold Nat.toDigits
  omega

/-- Counterexample to C2 as stated: on day 366 of year 99 at 06:00 the whole part
is 100000, which `%05d` prints with six digits. -/
theorem C2_counterexample :
    ValidInput 99 366 6 0 ∧ ¬ stardate_whole 99 366 6 0 ≤ 99999 ∧
      (fmt_0d 5 (stardate_whole 99 366 6 0)).length = 6 := by
  unfold ValidInput
  decide

/-- Claim C2, amended. For inputs in range with year at most 98, or with day of
the year at most 365, the whole part of the stardate lies in `0..99999`, and
`%05d` prints it with exactly five digits. -/
theorem C2_stardate_whole_five_digits (y d h m : ℤ) (v : ValidInput y d h m)
    (hcal : y ≤ 98 ∨ d ≤ 365) :
    0 ≤ stardate_whole y d h m ∧ stardate_whole y d h m ≤ 99999 ∧
      (fmt_0d 5 (stardate_whole y d h m)).length = 5 := by
  have vmax : ValidInput 99 365 23 59 := by unfold ValidInput; decide
  have hnn := stardate_whole_nonneg v
  have hle : stardate_whole y d h m ≤ 99999 := by
    refine le_of_le_of_eq (stardate_whole_le_of_le v vmax ?_) stardate_whole_max
    have v' := v
    obtain ⟨⟨y0, y1⟩, ⟨d0, d1⟩, ⟨h0, h1⟩, ⟨m0, m1⟩⟩ := v'
    rcases lt_or_eq_of_le y1 with hy | rfl
    · refine stardate_mono_days v vmax ?_
      have e99 : yearoffset_int 99 = 36159 := by decide
      rw [e99, yearoffset_int_eq y0]
      split_ifs <;> omega
    · have hd : d ≤ 365 := by
        rcases hcal with hc | hc
        · omega
        · exact hc
      rcases lt_or_eq_of_le hd with hd' | rfl
      · exact stardate_mono_days v vmax (by omega)
      · exact stardate_mono_time v vmax (by omega)
  exact ⟨hnn, hle, fmt_0d_five_digits hnn hle⟩

/-- Witness of the amended C2 at the largest admitted input. -/
theorem C2_witness :
    ValidInput 99 365 23 59 ∧ (0 ≤ stardate_whole 99 365 23 59 ∧
      stardate_whole 99 365 23 59 ≤ 99999 ∧
      (fmt_0d 5 (stardate_whole 99 365 23 59)).length = 5) :=
  ⟨by unfold ValidInput; decide,
    C2_stardate_whole_five_digits 99 365 23 59 (by unfold ValidInput; decide) (by decide)⟩

theorem fixture_values :
    yearoffset_int 16 = 5843 ∧ decdays 1 0 0 = ⟨0, 1⟩ ∧
      stardate 16 1 0 0 = f32 (f64 (Frac.mul (f32 (Frac.ofInt 5843)) stardate_scale)) ∧
      stardate 16 1 0 0 = ⟨16381546, 1024⟩ ∧
      stardate_whole 16 1 0 0 = 15997 ∧ stardate_frac 16 1 0 0 = 604 ∧
      String.mk ((stardate_format 16 1 0 0).take 8) = "15997.60" := by
  decide

/-- Claim C3. At the fixture (year 16, day of the year 1, 00:00) the year offset
is 5843, `decdays` is 0, the stardate is the `float` value of
`5843 * (1000 / 365.242196)` (within a thousandth of the exact quotient), its
whole part is 15997, and `stardate_update` sets the text `"15997.60"`. -/
theorem C3_fixture (u : ℕ) (w : Watch) :
    yearoffset_int 16 = 5843 ∧ (yearoffset 16).toRat = 5843 ∧ (decdays 1 0 0).toRat = 0 ∧
      stardate 16 1 0 0 = f32 (f64 (Frac.mul (f32 (Frac.ofInt 5843)) stardate_scale)) ∧
      |(stardate 16 1 0 0).toRat - 5843 * (1000 / 365.242196)| < 1 / 1000 ∧
      stardate_whole 16 1 0 0 = 15997 ∧
      (stardate_update fixture u w).text_stardate_layer = some "15997.60" := by
  obtain ⟨a, b, c, d, e, f, g⟩ := fixture_values
  refine ⟨a, ?_, ?_, c, ?_, e, ?_⟩
  · rw [yearoffset_toRat (by norm_num) (by norm_num), a]
    norm_num
  · rw [b]
    norm_num [Frac.toRat]
  · rw [d]
    norm_num [Frac.toRat, abs_lt]
  · rw [stardate_update_text fixture u w (by unfold Tm.inRange fixture; decide)]
    exact congrArg some g


/-! ## The stardate text (claim C4) -/

/-- Counterexample to C4 as stated: at the fixture the fraction value is 604
(the `float` product `stardate * 1000` is rounded up to 15997604; the floor of
the exact product is 15997603), the full output of the format is `"15997.604"`,
and the text set on the layer is its first eight characters, `"15997.60"`: the
third digit is not shown. -/
theorem C4_counterexample :
    stardate_frac 16 1 0 0 = 604 ∧
      ⌊(stardate 16 1 0 0).toRat * 1000⌋ % 1000 = 603 ∧
      String.mk (stardate_format 16 1 0 0) = "15997.604" ∧
      (stardate_update fixture 0 Watch.created).text_stardate_layer = some "15997.60" ∧
      (stardate_update fixture 0 Watch.created).text_stardate_layer ≠
        some (String.mk (stardate_format 16 1 0 0)) := by
  have hfloor : ⌊(stardate 16 1 0 0).toRat * 1000⌋ = 15997603 := by
    rw [fixture_values.2.2.2.1, Int.floor_eq_iff]
    norm_num [Frac.toRat]
  rw [hfloor]
  decide

/-- Claim C4, amended. For a `struct tm` in range, the text `stardate_update`
sets is the first eight characters of the output of `"%05d.%2d"` (the buffer
holds eight characters and the terminator); when the year is at most 98 or the
day of the year at most 365 these are the five digits of the zero-padded whole
part, the point, and the first two characters of the blank-padded fraction
value. -/
theorem C4_stardate_text (t : Tm) (u : ℕ) (w : Watch) (ht : t.inRange) :
    (stardate_update t u w).text_stardate_layer =
        some (String.mk ((stardate_format ((t.tm_year % 100 : ℕ) : ℤ)
          ((t.tm_yday + 1 : ℕ) : ℤ) (t.tm_hour : ℤ) (t.tm_min : ℤ)).take 8)) ∧
      (t.tm_year % 100 ≤ 98 ∨ t.tm_yday ≤ 364 →
        (stardate_update t u w).text_stardate_layer =
          some (String.mk (fmt_0d 5 (stardate_whole ((t.tm_year % 100 : ℕ) : ℤ)
              ((t.tm_yday + 1 : ℕ) : ℤ) (t.tm_hour : ℤ) (t.tm_min : ℤ)) ++ ['.'] ++
            (fmt_d 2 (stardate_frac ((t.tm_year % 100 : ℕ) : ℤ)
              ((t.tm_yday + 1 : ℕ) : ℤ) (t.tm_hour : ℤ) (t.tm_min : ℤ))).take 2))) := by
  have htext := stardate_update_text t u w ht
  refine ⟨htext, fun hcal => ?_⟩
  rw [htext]
  obtain ⟨h1, h2, h3⟩ := ht
  have hmod : t.tm_year % 100 < 100 := Nat.mod_lt _ (by norm_num)
  have v : ValidInput ((t.tm_year % 100 : ℕ) : ℤ) ((t.tm_yday + 1 : ℕ) : ℤ) (t.tm_hour : ℤ)
      (t.tm_min : ℤ) := by
    unfold ValidInput
    omega
  have hnn := stardate_whole_nonneg v
  have hle : stardate_whole ((t.tm_year % 100 : ℕ) : ℤ) ((t.tm_yday + 1 : ℕ) : ℤ)
      (t.tm_hour : ℤ) (t.tm_min : ℤ) ≤ 99999 := by
    have vmax : ValidInput 99 365 23 59 := by unfold ValidInput; decide
    refine le_of_le_of_eq (stardate_whole_le_of_le v vmax ?_) stardate_whole_max
    rcases Nat.lt_or_ge (t.tm_year % 100) 99 with hy | hy
    · refine stardate_mono_days v vmax ?_
      have e99 : yearoffset_int 99 = 36159 := by decide
      rw [e99, yearoffset_int_eq (by omega)]
      split_ifs <;> omega
    · have hy' : ((t.tm_year % 100 : ℕ) : ℤ) = 99 := by omega
      rw [hy'] at v ⊢
      rcases Nat.lt_or_ge t.tm_yday 364 with hd | hd
      · exact stardate_mono_days v vmax (by omega)
      · have hd' : ((t.tm_yday + 1 : ℕ) : ℤ) = 365 := by omega
        rw [hd'] at v ⊢
        exact stardate_mono_time v vmax (by omega)
  have hlen := fmt_0d_five_digits hnn hle
  unfold stardate_format
  rw [List.append_assoc, List.take_append_eq_append_take, hlen,
    List.take_of_length_le (by omega)]
  simp [List.append_assoc]

/-- Witness of the amended C4 at the fixture. -/
theorem C4_witness :
    fixture.inRange ∧ (stardate_update fixture 0 Watch.created).text_stardate_layer =
      some (String.mk ((stardate_format ((fixture.tm_year % 100 : ℕ) : ℤ)
        ((fixture.tm_yday + 1 : ℕ) : ℤ) (fixture.tm_hour : ℤ) (fixture.tm_min : ℤ)).take 8)) :=
  ⟨by unfold Tm.inRange; decide,
    (C4_stardate_text fixture 0 Watch.created (by unfold Tm.inRange; decide)).1⟩

/-! ## The year offset (claim C5) -/

/-- Counterexample to C5 as stated: for year 0 the C quotient `(0 - 1) / 4` is 0
and the year offset is 0, while the floor of `-1/4` is `-1`. -/
theorem C5_counterexample :
    yearoffset_int 0 = 0 ∧ (0 : ℤ) * 365 + ⌊((0 : ℚ) - 1) / 4⌋ = -1 ∧
      yearoffset_int 0 ≠ (0 : ℤ) * 365 + ⌊((0 : ℚ) - 1) / 4⌋ := by
  have h : ⌊((0 : ℚ) - 1) / 4⌋ = -1 := by
    rw [Int.floor_eq_iff]
    norm_num
  rw [h]
  decide

/-- Claim C5, amended. For every year in `0..99` the year offset is
`year * 365` plus the quotient of `year - 1` by 4 truncated toward zero: the
floor of `(year - 1) / 4` for years from 1 on, and 0 for year 0; its conversion to
`float` is exact. -/
theorem C5_yearoffset (year : ℤ) (h0 : 0 ≤ year) (h1 : year ≤ 99) :
    yearoffset_int year =
        year * 365 + (if year = 0 then 0 else ⌊((year : ℚ) - 1) / 4⌋) ∧
      (yearoffset year).toRat = (yearoffset_int year : ℚ) := by
  refine ⟨?_, yearoffset_toRat h0 h1⟩
  rw [yearoffset_int_eq h0]
  split_ifs with h
  · rfl
  · have e : ((year : ℚ) - 1) / 4 = (((year - 1 : ℤ) : ℚ)) / ((4 : ℕ) : ℚ) := by
      push_cast
      rfl
    rw [e, Rat.floor_intCast_div_natCast]
    rfl

/-- Witness of the amended C5 at year 16. -/
theorem C5_witness :
    (0 : ℤ) ≤ 16 ∧ (16 : ℤ) ≤ 99 ∧
      (yearoffset_int 16 =
          16 * 365 + (if (16 : ℤ) = 0 then 0 else ⌊(((16 : ℤ) : ℚ) - 1) / 4⌋) ∧
        (yearoffset 16).toRat = (yearoffset_int 16 : ℚ)) :=
  ⟨by decide, by decide, C5_yearoffset 16 (by decide) (by decide)⟩

/-! ## The battery label and bar (claims C6, C7) -/

/-- The `%02u` output for a percent below 100: its two decimal digits, neither
of them the terminator. -/
theorem fmt_percent_table : ∀ p < 100,
    fmt_0u 2 p = [Nat.digitChar (p / 10), Nat.digitChar (p % 10)] ∧
      Nat.digitChar (p / 10) ≠ NUL ∧ Nat.digitChar (p % 10) ≠ NUL := by
  decide

theorem fmt_0u_two_le_length (p : ℕ) : 2 ≤ (fmt_0u 2 p).length := by
  unfold fmt_0u
  rw [padLeft_length]
  omega

/-- The label buffer always has its four bytes, the last one a terminator. -/
theorem battery_buffer_step (b : BatteryChargeState) (w : Watch)
    (h : ∃ x y z, w.battery_percent_text = [x, y, z, NUL]) :
    ∃ x y z, (update_battery_display b w).battery_percent_text = [x, y, z, NUL] := by
  obtain ⟨x, y, z, hw⟩ := h
  have hlen := fmt_0u_two_le_length b.charge_percent
  have hbuf : ∃ x' y' z', snprintf w.battery_percent_text 4 (fmt_0u 2 b.charge_percent) =
      [x', y', z', NUL] := by
    rw [snprintf_eq, hw]
    rcases h3 : (fmt_0u 2 b.charge_percent) with _ | ⟨c1, _ | ⟨c2, _ | ⟨c3, r⟩⟩⟩
    · rw [h3] at hlen; simp at hlen
    · rw [h3] at hlen; simp at hlen
    · exact ⟨c1, c2, NUL, by simp⟩
    · exact ⟨c1, c2, c3, by simp⟩
  obtain ⟨x', y', z', hs⟩ := hbuf
  simp only [update_battery_display, hs]
  split_ifs
  · exact ⟨x', y', '%', by simp⟩
  · exact ⟨x', y', z', rfl⟩

theorem time_update_battery_percent_text (h : Host) (t : Tm) (u : ℕ) (w : Watch) :
    (time_update h t u w).battery_percent_text = w.battery_percent_text := by
  simp only [time_update, stardate_update, date_update]
  split_ifs <;> simp only []

theorem reachable_battery_buffer {w : Watch} (hw : Reachable w) :
    ∃ x y z, w.battery_percent_text = [x, y, z, NUL] := by
  induction hw with
  | created => exact ⟨'0', '0', '0', rfl⟩
  | tick h t u _ ih => rw [time_update_battery_percent_text]; exact ih
  | battery b _ ih => exact battery_buffer_step b _ ih
  | bluetooth c _ ih => exact ih

/-- Claim C6. In every state of a run, whatever earlier calls left in the
buffer, `update_battery_display` with a percent below 100 sets the label to the
two decimal digits of the percent followed by `%`, and with percent 100 sets it
to `"100"`. -/
theorem C6_battery_label (w : Watch) (hw : Reachable w) (b : BatteryChargeState)
    (hp : b.charge_percent ≤ 100) :
    (update_battery_display b w).battery_percent =
      some (if b.charge_percent = 100 then "100"
        else String.mk [Nat.digitChar (b.charge_percent / 10),
          Nat.digitChar (b.charge_percent % 10), '%']) := by
  obtain ⟨x, y, z, hbuf⟩ := reachable_battery_buffer hw
  rcases Nat.lt_or_ge b.charge_percent 100 with hlt | hge
  · obtain ⟨e, n1, n2⟩ := fmt_percent_table b.charge_percent hlt
    rw [if_neg (by omega)]
    simp only [update_battery_display, if_pos hlt, hbuf, e]
    have hs : (snprintf [x, y, z, NUL] 4
        [Nat.digitChar (b.charge_percent / 10), Nat.digitChar (b.charge_percent % 10)]).set 2 '%'
        = [Nat.digitChar (b.charge_percent / 10), Nat.digitChar (b.charge_percent % 10), '%']
          ++ NUL :: [] := by
      simp [snprintf]
    rw [hs, cstr_append_NUL]
    intro c hc
    simp only [List.mem_cons, List.mem_singleton, List.not_mem_nil, or_false] at hc
    rcases hc with rfl | rfl | rfl
    · exact n1
    · exact n2
    · decide
  · have h100 : b.charge_percent = 100 := by omega
    rw [if_pos h100]
    simp only [update_battery_display, h100, hbuf]
    rfl

/-- Witness of C6: percent 5 right after percent 100, which left `"100"` in the
buffer, and percent 45 and 100 after that. -/
theorem C6_witness :
    Reachable (update_battery_display ⟨100, true⟩ Watch.created) ∧
      (update_battery_display ⟨5, false⟩
        (update_battery_display ⟨100, true⟩ Watch.created)).battery_percent = some "05%" :=
  ⟨Reachable.battery _ Reachable.created,
    C6_battery_label _ (Reachable.battery _ Reachable.created) ⟨5, false⟩ (by decide)⟩

theorem bar_table : ∀ p ≤ 100,
    p * 19 / 100 ≤ 19 ∧ (p * 19 / 100 = 19 ↔ p = 100) := by
  decide

/-- Claim C7. After `update_battery_display` with a percent `p` in `0..100` the
bar drawn by `battery_status_layer_update` has width `floor(p * 19 / 100)`; the
width lies in `0..19`, does not decrease when `p` grows, and is 19 exactly when
`p = 100`. -/
theorem C7_battery_bar (p q : ℕ) (c c' : Bool) (w w' : Watch) (hp : p ≤ 100) :
    (battery_status_layer_update (update_battery_display ⟨p, c⟩ w)).w
        = ⌊((p : ℚ) * 19) / 100⌋ ∧
      0 ≤ (battery_status_layer_update (update_battery_display ⟨p, c⟩ w)).w ∧
      (battery_status_layer_update (update_battery_display ⟨p, c⟩ w)).w ≤ 19 ∧
      (p ≤ q → (battery_status_layer_update (update_battery_display ⟨p, c⟩ w)).w ≤
        (battery_status_layer_update (update_battery_display ⟨q, c'⟩ w')).w) ∧
      ((battery_status_layer_update (update_battery_display ⟨p, c⟩ w)).w = 19 ↔ p = 100) := by
  have hw : ∀ (r : ℕ) (d : Bool) (v : Watch),
      (battery_status_layer_update (update_battery_display ⟨r, d⟩ v)).w
        = ((r * 19 / 100 : ℕ) : ℤ) := fun _ _ _ => rfl
  obtain ⟨t1, t2⟩ := bar_table p hp
  rw [hw p c w, hw q c' w']
  refine ⟨?_, Int.natCast_nonneg _, by exact_mod_cast t1, fun hpq => ?_, ?_⟩
  · have e : ((p : ℚ) * 19) / 100 = (((p * 19 : ℕ) : ℤ) : ℚ) / ((100 : ℕ) : ℚ) := by
      push_cast
      rfl
    rw [e, Rat.floor_intCast_div_natCast]
    rfl
  · have : p * 19 / 100 ≤ q * 19 / 100 := Nat.div_le_div_right (by omega)
    exact_mod_cast this
  · rw [← t2]
    exact_mod_cast Iff.rfl

/-- Witness of C7: percent 99 gives a width of at most that of percent 100, and
not the full width. -/
theorem C7_witness :
    (99 : ℕ) ≤ 100 ∧
      ((99 ≤ 100 →
        (battery_status_layer_update (update_battery_display ⟨99, false⟩ Watch.created)).w ≤
          (battery_status_layer_update (update_battery_display ⟨100, true⟩ Watch.created)).w) ∧
      ((battery_status_layer_update (update_battery_display ⟨99, false⟩ Watch.created)).w = 19
        ↔ 99 = 100)) :=
  ⟨by decide,
    (C7_battery_bar 99 100 false true Watch.created Watch.created (by decide)).2.2.2⟩


/-! ## The tick callback (claims C8, C9, C10) -/

/-- On the masks of the six unit bits, `units_changed >= DAY_UNIT` holds exactly
when one of the day, month and year bits is set. -/
theorem date_gate_table : ∀ u < 64, (u ≥ DAY_UNIT ↔ u &&& DATE_UNITS ≠ 0) := by
  decide

theorem time_update_date_text (h : Host) (t : Tm) (u : ℕ) (w : Watch) :
    (time_update h t u w).date_text =
      (if u ≥ DAY_UNIT then (date_update t u w).date_text else w.date_text) := by
  simp only [time_update, stardate_update, date_update]
  split_ifs <;> simp only []

theorem time_update_nice_date_text (h : Host) (t : Tm) (u : ℕ) (w : Watch) :
    (time_update h t u w).nice_date_text =
      (if u ≥ DAY_UNIT then (date_update t u w).nice_date_text else w.nice_date_text) := by
  simp only [time_update, stardate_update, date_update]
  split_ifs <;> simp only []

theorem time_update_text_date_layer (h : Host) (t : Tm) (u : ℕ) (w : Watch) :
    (time_update h t u w).text_date_layer =
      (if u ≥ DAY_UNIT then (date_update t u w).text_date_layer else w.text_date_layer) := by
  simp only [time_update, stardate_update, date_update]
  split_ifs <;> simp only []

theorem time_update_text_nice_date_layer (h : Host) (t : Tm) (u : ℕ) (w : Watch) :
    (time_update h t u w).text_nice_date_layer =
      (if u ≥ DAY_UNIT then (date_update t u w).text_nice_date_layer
        else w.text_nice_date_layer) := by
  simp only [time_update, stardate_update, date_update]
  split_ifs <;> simp only []

theorem time_update_text_stardate_layer (h : Host) (t : Tm) (u : ℕ) (w : Watch) :
    (time_update h t u w).text_stardate_layer = (stardate_update t u w).text_stardate_layer := by
  simp only [time_update, stardate_update, date_update]
  split_ifs <;> simp only []

theorem time_update_text_time_layer (h : Host) (t : Tm) (u : ℕ) (w : Watch) :
    (time_update h t u w).text_time_layer =
      some (cstr (if h.clock_is_24h_style then strftime w.time_text 6 (strf_R t)
        else clock_copy_time_string h w.time_text (clock_copy_size t.tm_hour))) := by
  simp only [time_update, stardate_update, date_update]
  split_ifs <;> simp only []

theorem time_update_text_ampm_layer (h : Host) (t : Tm) (u : ℕ) (w : Watch) :
    (time_update h t u w).text_ampm_layer =
      (if h.clock_is_24h_style then w.text_ampm_layer
        else some (if t.tm_hour < 12 then "am" else "pm")) := by
  simp only [time_update, stardate_update, date_update]
  split_ifs <;> simp only []

/-- Claim C8. For a mask `u` of the six unit bits, `time_update` recomputes the
two date strings (buffers and layers are those `date_update` produces) when a
day, month or year bit is set and leaves them untouched otherwise; for every
mask it sets the stardate text `stardate_update` computes and the time text; the
startup call of `init`, with `DAY_UNIT`, fills the date strings. -/
theorem C8_time_update_gating (h : Host) (t : Tm) (u : ℕ) (w : Watch) (hu : u < 64) :
    (u &&& DATE_UNITS ≠ 0 →
        (time_update h t u w).date_text = (date_update t u w).date_text ∧
        (time_update h t u w).nice_date_text = (date_update t u w).nice_date_text ∧
        (time_update h t u w).text_date_layer = (date_update t u w).text_date_layer ∧
        (time_update h t u w).text_nice_date_layer =
          (date_update t u w).text_nice_date_layer) ∧
      (u &&& DATE_UNITS = 0 →
        (time_update h t u w).date_text = w.date_text ∧
        (time_update h t u w).nice_date_text = w.nice_date_text ∧
        (time_update h t u w).text_date_layer = w.text_date_layer ∧
        (time_update h t u w).text_nice_date_layer = w.text_nice_date_layer) ∧
      (time_update h t u w).text_stardate_layer = (stardate_update t u w).text_stardate_layer ∧
      (time_update h t u w).text_time_layer =
        some (cstr (if h.clock_is_24h_style then strftime w.time_text 6 (strf_R t)
          else clock_copy_time_string h w.time_text (clock_copy_size t.tm_hour))) ∧
      (∀ (b : BatteryChargeState) (c : Bool),
        (init h t b c).text_date_layer =
          some (cstr (strftime Watch.created.date_text 9
            (strf_d t ++ ['.'] ++ strf_m t ++ ['.'] ++ strf_y t))) ∧
        (init h t b c).text_nice_date_layer =
          some (cstr (strftime Watch.created.nice_date_text 13
            (strf_a t ++ ['.', '\n'] ++ strf_b t ++ ['.', '\n'] ++ strf_d t)))) := by
  have gate := date_gate_table u hu
  refine ⟨fun hset => ?_, fun hclear => ?_, time_update_text_stardate_layer h t u w,
    time_update_text_time_layer h t u w, fun b c => ⟨?_, ?_⟩⟩
  · have hge : u ≥ DAY_UNIT := gate.mpr hset
    rw [time_update_date_text, time_update_nice_date_text, time_update_text_date_layer,
      time_update_text_nice_date_layer]
    simp only [if_pos hge, and_self]
  · have hlt : ¬ u ≥ DAY_UNIT := fun hge => gate.mp hge hclear
    rw [time_update_date_text, time_update_nice_date_text, time_update_text_date_layer,
      time_update_text_nice_date_layer]
    simp only [if_neg hlt, and_self]
  · have e : (init h t b c).text_date_layer =
        (time_update h t DAY_UNIT Watch.created).text_date_layer := by
      simp only [init, update_bluetooth_status, update_battery_display]
    rw [e, time_update_text_date_layer, if_pos (le_refl _)]
    simp only [date_update]
  · have e : (init h t b c).text_nice_date_layer =
        (time_update h t DAY_UNIT Watch.created).text_nice_date_layer := by
      simp only [init, update_bluetooth_status, update_battery_display]
    rw [e, time_update_text_nice_date_layer, if_pos (le_refl _)]
    simp only [date_update]

/-- Witness of C8: a minute tick (mask `MINUTE_UNIT`) on the state after layer
creation leaves the date layers unset, and sets the stardate text. -/
theorem C8_witness :
    MINUTE_UNIT < 64 ∧
      (MINUTE_UNIT &&& DATE_UNITS = 0 →
        (time_update ⟨true, []⟩ fixture MINUTE_UNIT Watch.created).date_text =
          Watch.created.date_text ∧
        (time_update ⟨true, []⟩ fixture MINUTE_UNIT Watch.created).nice_date_text =
          Watch.created.nice_date_text ∧
        (time_update ⟨true, []⟩ fixture MINUTE_UNIT Watch.created).text_date_layer =
          Watch.created.text_date_layer ∧
        (time_update ⟨true, []⟩ fixture MINUTE_UNIT Watch.created).text_nice_date_layer =
          Watch.created.text_nice_date_layer) :=
  ⟨by decide,
    (C8_time_update_gating ⟨true, []⟩ fixture MINUTE_UNIT Watch.created (by decide)).2.1⟩

/-- Claim C9. In 12-hour style `time_update` sets the am/pm label to `"am"` when
the hour is below 12 and to `"pm"` otherwise; in 24-hour style it leaves the
label as it was before the call. -/
theorem C9_ampm_label (h : Host) (t : Tm) (u : ℕ) (w : Watch) :
    (h.clock_is_24h_style = false →
        (time_update h t u w).text_ampm_layer =
          some (if t.tm_hour < 12 then "am" else "pm")) ∧
      (h.clock_is_24h_style = true →
        (time_update h t u w).text_ampm_layer = w.text_ampm_layer) := by
  constructor
  · intro h12
    rw [time_update_text_ampm_layer, h12]
    simp only [Bool.false_eq_true, if_false]
  · intro h24
    rw [time_update_text_ampm_layer, h24]
    simp only [if_true]

/-- Witness of C9: hour 0 in 12-hour style gives `"am"`, hour 13 gives `"pm"`,
and a following tick in 24-hour style keeps the `"pm"`. -/
theorem C9_witness :
    (time_update ⟨false, "12:00 AM".data⟩ fixture MINUTE_UNIT Watch.created).text_ampm_layer
        = some "am" ∧
      (time_update ⟨false, "1:05 PM".data⟩ { fixture with tm_hour := 13, tm_min := 5 }
        MINUTE_UNIT Watch.created).text_ampm_layer = some "pm" ∧
      (time_update ⟨true, []⟩ { fixture with tm_hour := 13, tm_min := 6 } MINUTE_UNIT
        (time_update ⟨false, "1:05 PM".data⟩ { fixture with tm_hour := 13, tm_min := 5 }
          MINUTE_UNIT Watch.created)).text_ampm_layer = some "pm" :=
  ⟨(C9_ampm_label ⟨false, "12:00 AM".data⟩ fixture MINUTE_UNIT Watch.created).1 rfl,
    (C9_ampm_label ⟨false, "1:05 PM".data⟩ { fixture with tm_hour := 13, tm_min := 5 }
      MINUTE_UNIT Watch.created).1 rfl,
    ((C9_ampm_label ⟨true, []⟩ { fixture with tm_hour := 13, tm_min := 6 } MINUTE_UNIT
      (time_update ⟨false, "1:05 PM".data⟩ { fixture with tm_hour := 13, tm_min := 5 }
        MINUTE_UNIT Watch.created)).2 rfl).trans
      ((C9_ampm_label ⟨false, "1:05 PM".data⟩ { fixture with tm_hour := 13, tm_min := 5 }
        MINUTE_UNIT Watch.created).1 rfl)⟩

/-- Claim C10 fails on the code. At hours 0 and 12 the 12-hour clock shows
`12`, the text `12:MM` needs six bytes, and `time_update` passes five: from the
host text `"12:05 AM"` the time layer gets `"12:0"`.  At every other hour the size
passed is the size needed. -/
theorem C10_clock_copy_size_at_twelve :
    clock_copy_size 0 = 5 ∧ clock_text_size 0 = 6 ∧
      clock_copy_size 12 = 5 ∧ clock_text_size 12 = 6 ∧
      (time_update ⟨false, "12:05 AM".data⟩ { fixture with tm_min := 5 } MINUTE_UNIT
        Watch.created).text_time_layer = some "12:0" ∧
      (∀ hour < 24, hour % 12 ≠ 0 → clock_copy_size hour = clock_text_size hour) := by
  decide

end Trekkie
